import Mathlib

/-!
# GoSelpg: page selection filter

A shallow embedding of `selpg.go` (argument validation in `processArgs`, the
selection loops, the draining of standard input and the printing step of
`processInput`, and `main` after flag parsing) and of the test-file generator
`test/genTestFile.go`, followed by the properties proved on it.

Conventions of the embedding:

* a Go `string` / byte stream is a `List Byte`, a byte being a natural number
  (the value of the byte);
* Go `int` fields and counters are `Int`.  Each counter of the selection loop
  moves by at most one per read, so on an input shorter than `2^63 - 2` bytes
  no counter can leave the 64-bit range; the counters are therefore unbounded;
* `panic` in `processArgs` is an `Except.error` carrying the panic value;
* the reader's source is a finite byte sequence: it delivers its bytes and
  then `io.EOF`; read errors other than `io.EOF` do not arise;
* a `for { ... }` loop is a function with a fuel argument returning `Option`;
  the scan runs it with more fuel than the loop can use, and the lemmas
  `formFeedLoop_writer` and `lineLoop_writer` show that a result is always
  produced.
-/

namespace Selpg

/-! ## Data model -/

/-- One byte of a stream, by its value. -/
abbrev Byte := Nat

/-- The form-feed byte `'\f'`. -/
def FF : Byte := 12

/-- The newline byte `'\n'`. -/
def NL : Byte := 10

/-- The record `SelpgArgs` of `selpg.go`. -/
structure SelpgArgs where
  startPage : Int
  endPage : Int
  pageLength : Int
  formFeed : Bool
  destination : String
  inputFile : String
deriving DecidableEq, Repr

/-! ## Argument validation (`processArgs`) -/

/-- The closure `findL` of `processArgs`: is some raw token exactly `--l`? -/
def findL : List String → Bool
  | [] => false
  | a :: rest => if a = "--l" then true else findL rest

/-- The function `processArgs`: the first component is `Except.error msg` when
the function panics with `msg` (the deferred handler then prints it and exits
with status 1) and `Except.ok ()` when it returns; the second component is the
record `*psa` as the call leaves it. -/
def processArgs (psa : SelpgArgs) (nonFlags allArgs : List String) :
    Except String Unit × SelpgArgs :=
  if psa.startPage < 1 then
    (Except.error "selpg: Valid start page number does not exist.", psa)
  else if psa.endPage < 1 then
    (Except.error "selpg: Valid end page number does not exist.", psa)
  else if psa.endPage < psa.startPage then
    (Except.error
      "selpg: The end page number should be not smaller than the start page number.", psa)
  else if psa.pageLength < 1 then
    (Except.error "selpg: Invalid page length.", psa)
  else if psa.formFeed && (psa.pageLength != 72 || findL allArgs) then
    (Except.error "selpg: Only one way of delimiting pages can be chosen.", psa)
  else if nonFlags.length > 1 then
    (Except.error "selpg: There should be at most one input file.", psa)
  else if h : nonFlags.length = 1 then
    (Except.ok (), { psa with inputFile := nonFlags.get ⟨0, by omega⟩ })
  else
    (Except.ok (), psa)

/-- The validation errors the specification names. -/
inductive ArgError where
  | InvalidStartPage
  | InvalidEndPage
  | EndBeforeStart
  | InvalidPageLength
  | ConflictingDelimiters
  | TooManyInputFiles
deriving DecidableEq, Repr

/-- The panic value `processArgs` raises for each named error. -/
def ArgError.message : ArgError → String
  | InvalidStartPage => "selpg: Valid start page number does not exist."
  | InvalidEndPage => "selpg: Valid end page number does not exist."
  | EndBeforeStart =>
      "selpg: The end page number should be not smaller than the start page number."
  | InvalidPageLength => "selpg: Invalid page length."
  | ConflictingDelimiters => "selpg: Only one way of delimiting pages can be chosen."
  | TooManyInputFiles => "selpg: There should be at most one input file."

/-! ## The reader and the selection loops (`processInput`) -/

/-- The call `reader.ReadString(delim)` on a buffered reader whose unread bytes
are the argument: the bytes up to and including the first `delim`, or all the
unread bytes together with `io.EOF` when no `delim` remains.  The result is
`(data, eof, unread bytes afterwards)`. -/
def readString (delim : Byte) : List Byte → List Byte × Bool × List Byte
  | [] => ([], true, [])
  | b :: bs =>
    if b = delim then ([b], false, bs)
    else
      match readString delim bs with
      | (data, eof, rest) => (b :: data, eof, rest)

/-- The state of one pass of the selection loop: the unread bytes of `reader`,
the strings handed to `writer.WriteString` so far (in order), the two counters
and the number of `ReadString` calls made. -/
structure Scan where
  reader : List Byte
  writer : List (List Byte)
  pageCounter : Int
  lineCounter : Int
  reads : Nat
deriving DecidableEq, Repr

/-- The content of the buffer, `writer.String()`. -/
def Scan.output (st : Scan) : List Byte := st.writer.flatten

/-- The loop of form-feed mode (`selpg.go`, lines 89-101). -/
def formFeedLoop (psa : SelpgArgs) : Nat → Scan → Option Scan
  | 0, _ => none
  | fuel + 1, st =>
    match readString FF st.reader with
    | (page, eof, rest) =>
      let writer :=
        if psa.startPage ≤ st.pageCounter ∧ st.pageCounter < psa.endPage then
          st.writer ++ [page]
        else st.writer
      let pageCounter := st.pageCounter + 1
      let st1 : Scan :=
        { reader := rest, writer := writer, pageCounter := pageCounter,
          lineCounter := st.lineCounter, reads := st.reads + 1 }
      if pageCounter = psa.endPage ∨ eof = true then some st1
      else formFeedLoop psa fuel st1

/-- The loop of line-count mode (`selpg.go`, lines 104-120). -/
def lineLoop (psa : SelpgArgs) : Nat → Scan → Option Scan
  | 0, _ => none
  | fuel + 1, st =>
    match readString NL st.reader with
    | (line, eof, rest) =>
      let writer :=
        if psa.startPage ≤ st.pageCounter ∧ st.pageCounter < psa.endPage then
          st.writer ++ [line]
        else st.writer
      let lineCounter := st.lineCounter + 1
      let pageCounter :=
        if lineCounter > psa.pageLength then st.pageCounter + 1 else st.pageCounter
      let lineCounter := if lineCounter > psa.pageLength then 1 else lineCounter
      let st1 : Scan :=
        { reader := rest, writer := writer, pageCounter := pageCounter,
          lineCounter := lineCounter, reads := st.reads + 1 }
      if pageCounter = psa.endPage ∨ eof = true then some st1
      else lineLoop psa fuel st1

/-- The state in which the selection starts: `pageCounter := 1`, an empty
`writer`, the whole input unread (`lineCounter := 1` is set in line-count mode
and unused in form-feed mode). -/
def Scan.init (input : List Byte) : Scan :=
  { reader := input, writer := [], pageCounter := 1, lineCounter := 1, reads := 0 }

/-- The selection of `processInput` (`selpg.go`, lines 87-121) on a reader over
`input`: the loop of the mode `psa.formFeed` chooses.  Each iteration but the
last consumes a delimiter, so `input.length + 1` iterations suffice. -/
def scan (psa : SelpgArgs) (input : List Byte) : Option Scan :=
  if psa.formFeed then formFeedLoop psa (input.length + 1) (Scan.init input)
  else lineLoop psa (input.length + 1) (Scan.init input)

/-- The bytes `processInput` prints to standard output: the content of `writer`
when the selection ends. -/
def selected (psa : SelpgArgs) (input : List Byte) : Option (List Byte) :=
  (scan psa input).map Scan.output

/-- The record `main` hands over after parsing flags `--s`, `--e`, `--l`, `--f`
with no `--d` and no input file. -/
def request (s e len : Int) (ff : Bool) : SelpgArgs :=
  { startPage := s, endPage := e, pageLength := len, formFeed := ff,
    destination := "", inputFile := "" }

/-! ## The test files (`test/genTestFile.go`) -/

/-- The digits of `n`, most significant first, as bytes; `fuel` bounds their number. -/
def digits : Nat → Nat → List Byte → List Byte
  | 0, _, acc => acc
  | fuel + 1, n, acc =>
    if n < 10 then (48 + n) :: acc else digits fuel (n / 10) ((48 + n % 10) :: acc)

/-- The call `strconv.Itoa(n)` for a natural number. -/
def itoa (n : Nat) : List Byte := digits (n + 1) n []

/-- The file `test-pageLength`: the lines `1` to `150`. -/
def testPageLength : List Byte :=
  ((List.range 150).map fun i => itoa (i + 1) ++ [NL]).flatten

/-- The file `test-formFeed`: the five chunks `1\f` to `5\f`. -/
def testFormFeed : List Byte :=
  ((List.range 5).map fun i => itoa (i + 1) ++ [FF]).flatten

/-- The lines `lo` to `hi` of `test-pageLength`. -/
def linesFromTo (lo hi : Nat) : List Byte :=
  ((List.range (hi + 1 - lo)).map fun i => itoa (lo + i) ++ [NL]).flatten

/-! ## The run (`processInput`, `main`) -/

/-- The bytes of an ASCII string. -/
def bytes (s : String) : List Byte := s.toList.map Char.toNat

/-- What a run meets outside the program: the bytes of standard input; for a
path, the error text of `os.Open` or the bytes of the file; whether
`cmd.StdinPipe()` returns a pipe, and the text of the error it returns (`none`
for `nil`); the output `cmd.CombinedOutput()` returns and the text of its error
(`none` for `nil`). -/
structure World where
  stdin : List Byte
  openFile : String → Except (List Byte) (List Byte)
  pipe : Bool
  pipeErr : Option (List Byte)
  spoolerOut : List Byte
  spoolerErr : Option (List Byte)

/-- How a run ends: the process exits with a status (`os.Exit`, or 0 when
`main` returns), or the Go runtime stops it on a nil dereference (it then
prints its trace and exits with status 2). -/
inductive Ending where
  | exit (status : Nat)
  | runtimePanic
deriving DecidableEq, Repr

/-- The exit status of the process. -/
def Ending.status : Ending → Nat
  | Ending.exit n => n
  | Ending.runtimePanic => 2

/-- What a run leaves: the bytes written to standard output and to standard
error by the program, the bytes written to the spooler's input, the unread
bytes of `reader` (`none` when no reader was made), the number of read calls
made on `reader`, and how the run ended. -/
structure Outcome where
  stdout : List Byte
  stderr : List Byte
  spoolerIn : List Byte
  reader : Option (List Byte)
  reads : Nat
  ending : Ending
deriving DecidableEq, Repr

/-- What `fmt.Fprintln(os.Stderr, err)` prints for `err`, without the newline:
`<nil>` for a nil error. -/
def errorText : Option (List Byte) → List Byte
  | none => bytes "<nil>"
  | some text => text

/-- The closure `processError` of `processInput`: print the error on standard
error and `os.Exit(1)`. -/
def processError (err : Option (List Byte)) (o : Outcome) : Outcome :=
  { o with stderr := o.stderr ++ errorText err ++ [NL], ending := Ending.exit 1 }

/-- What `fmt.Println(out)` prints for a byte slice: the values of the bytes in
decimal between brackets, separated by blanks, and a newline. -/
def printlnBytes (out : List Byte) : List Byte :=
  [91] ++ (List.intersperse [32] (out.map itoa)).flatten ++ [93, NL]

/-- The loop that empties standard input (`selpg.go`, lines 125-132) on a reader
with the given unread bytes, after `reads` read calls: `ReadByte` until
`io.EOF`.  The result is the unread bytes and the number of read calls. -/
def drainLoop : Nat → List Byte → Nat → Option (List Byte × Nat)
  | 0, _, _ => none
  | _ + 1, [], reads => some ([], reads + 1)
  | fuel + 1, _ :: rest, reads => drainLoop fuel rest (reads + 1)

/-- The printing part of `processInput` (`selpg.go`, lines 139-152) for a
non-empty destination, `text` being `writer.String()`. -/
def spool (w : World) (text : List Byte) (o : Outcome) : Outcome :=
  if w.pipeErr.isNone then processError w.pipeErr o
  else if w.pipe = false then { o with ending := Ending.runtimePanic }
  else
    let o1 : Outcome := { o with spoolerIn := o.spoolerIn ++ text }
    if w.spoolerErr.isNone then processError w.spoolerErr o1
    else { o1 with stdout := o1.stdout ++ printlnBytes w.spoolerOut }

/-- The function `processInput`: open the input, select, empty standard input,
print the selection, hand it to the spooler. -/
def processInput (w : World) (psa : SelpgArgs) : Option Outcome :=
  let opened : Except (List Byte) (List Byte) :=
    if psa.inputFile = "" then Except.ok w.stdin else w.openFile psa.inputFile
  match opened with
  | Except.error err =>
    some (processError (some err)
      { stdout := [], stderr := [], spoolerIn := [], reader := some [], reads := 0,
        ending := Ending.exit 0 })
  | Except.ok input =>
    match scan psa input with
    | none => none
    | some st =>
      let drained : Option (List Byte × Nat) :=
        if psa.inputFile = "" then drainLoop (st.reader.length + 1) st.reader st.reads
        else some (st.reader, st.reads)
      match drained with
      | none => none
      | some (unread, reads) =>
        let o : Outcome :=
          { stdout := st.output, stderr := [], spoolerIn := [], reader := some unread,
            reads := reads, ending := Ending.exit 0 }
        if psa.destination != "" then some (spool w st.output o) else some o

/-- The function `main` once the flags are parsed: `psa` is the record the flag
parser has filled, `nonFlags` is `flag.Args()` and `allArgs` is `os.Args[1:]`.
When `processArgs` panics, its deferred handler prints the panic value with
`fmt.Println` and exits with status 1. -/
def main (w : World) (psa : SelpgArgs) (nonFlags allArgs : List String) : Option Outcome :=
  match processArgs psa nonFlags allArgs with
  | (Except.error msg, _) =>
    some { stdout := bytes msg ++ [NL], stderr := [], spoolerIn := [], reader := none,
           reads := 0, ending := Ending.exit 1 }
  | (Except.ok _, psa1) => processInput w psa1

/-- A request with other page numbers. -/
def withPages (psa : SelpgArgs) (s e : Int) : SelpgArgs :=
  { psa with startPage := s, endPage := e }

/-- A request with another input file. -/
def withInputFile (psa : SelpgArgs) (file : String) : SelpgArgs :=
  { psa with inputFile := file }

/-- A world with the given standard input in which no file opens and both
spooler steps succeed. -/
def plainWorld (stdin : List Byte) : World :=
  { stdin := stdin, openFile := fun _ => Except.error (bytes "open: no such file or directory"),
    pipe := true, pipeErr := none, spoolerOut := [], spoolerErr := none }

/-- A request with another destination. -/
def withDestination (psa : SelpgArgs) (destination : String) : SelpgArgs :=
  { psa with destination := destination }

/-- A world with the given standard input in which `cmd.StdinPipe()` fails. -/
def pipeFailsWorld (stdin : List Byte) : World :=
  { stdin := stdin, openFile := fun _ => Except.error (bytes "open: no such file or directory"),
    pipe := false, pipeErr := some (bytes "pipe: too many open files"), spoolerOut := [],
    spoolerErr := none }

/-- A world in which standard input and the file `name` hold the same bytes
and both spooler steps succeed. -/
def fileWorld (name : String) (content : List Byte) : World :=
  { stdin := content,
    openFile := fun path =>
      if path = name then Except.ok content
      else Except.error (bytes "open: no such file or directory"),
    pipe := true, pipeErr := none, spoolerOut := [], spoolerErr := none }

/-! ## Reference notions of the specification -/

/-- The input split after each `delim` byte, the delimiter kept with its
piece and the unterminated remainder (possibly empty) as the last piece. -/
def splitAfter (delim : Byte) : List Byte → List (List Byte)
  | [] => [[]]
  | b :: bs =>
    if b = delim then [b] :: splitAfter delim bs
    else
      match splitAfter delim bs with
      | [] => [[b]]
      | c :: cs => (b :: c) :: cs

/-- The elements of a list whose index, counted from `i` for the head,
satisfies `keep`, in order. -/
def pickFrom {α : Type} (keep : Nat → Bool) : Nat → List α → List α
  | _, [] => []
  | i, x :: xs =>
    if keep i then x :: pickFrom keep (i + 1) xs else pickFrom keep (i + 1) xs

/-- The elements of a list whose 0-based index `i` satisfies `lo ≤ i < hi`, in order. -/
def selectIndices {α : Type} (lo hi : Int) (xs : List α) : List α :=
  pickFrom (fun i => decide (lo ≤ (i : Int) ∧ (i : Int) < hi)) 0 xs

/-- The input up to and including its `k`-th `delim` byte (the whole input
when it has fewer): its first `k` delimited pieces. -/
def takeChunks (delim : Byte) : Nat → List Byte → List Byte
  | 0, _ => []
  | _ + 1, [] => []
  | k + 1, b :: bs =>
    if b = delim then b :: takeChunks delim k bs else b :: takeChunks delim (k + 1) bs

/-- The input after its `k`-th `delim` byte (empty when it has fewer): what
remains once its first `k` delimited pieces are removed. -/
def dropChunks (delim : Byte) : Nat → List Byte → List Byte
  | 0, l => l
  | _ + 1, [] => []
  | k + 1, b :: bs =>
    if b = delim then dropChunks delim k bs else dropChunks delim (k + 1) bs

/-- The delimiter of the mode of a request: form feed or newline. -/
def delimiter (psa : SelpgArgs) : Byte := if psa.formFeed then FF else NL

/-- The number of delimited pieces that make one page: one chunk in form-feed
mode, `pageLength` lines in line-count mode. -/
def piecesPerPage (psa : SelpgArgs) : Int := if psa.formFeed then 1 else psa.pageLength

/-- The first `k` pages of the input: the input up to and including its `k`-th
form feed, or its first `k * pageLength` lines. -/
def takePages (psa : SelpgArgs) (k : Int) (input : List Byte) : List Byte :=
  takeChunks (delimiter psa) (k * piecesPerPage psa).toNat input

/-- The input without its first `k` pages. -/
def dropPages (psa : SelpgArgs) (k : Int) (input : List Byte) : List Byte :=
  dropChunks (delimiter psa) (k * piecesPerPage psa).toNat input

/-- The number of non-empty pieces of the input split after each `delim`. -/
def numPieces (delim : Byte) (input : List Byte) : Nat :=
  ((splitAfter delim input).filter fun c => !c.isEmpty).length

/-- The number of pages of the input: its non-empty form-feed chunks, or its
groups of `pageLength` lines, the last group possibly partial (a line being a
non-empty piece of the split after each newline). -/
def numPages (psa : SelpgArgs) (input : List Byte) : Nat :=
  if psa.formFeed then numPieces FF input
  else (numPieces NL input + psa.pageLength.toNat - 1) / psa.pageLength.toNat

/-- The number of page boundaries present in the input: its form-feed bytes, or
its completed groups of `pageLength` newline-terminated lines. -/
def pageBoundaries (psa : SelpgArgs) (input : List Byte) : Nat :=
  if psa.formFeed then input.count FF else input.count NL / psa.pageLength.toNat

/-- The number of pages the scan can read in full: the chunks of the input, its
final unterminated (possibly empty) chunk included, or the completed groups of
`pageLength` lines, the final unterminated (possibly empty) line included. -/
def readablePages (psa : SelpgArgs) (input : List Byte) : Nat :=
  if psa.formFeed then input.count FF + 1
  else (input.count NL + 1) / psa.pageLength.toNat

/-- The amount a pass has appended, in pages: the number of chunks appended in
form-feed mode, the number of lines appended divided by `pageLength` in
line-count mode. -/
def appendedPages (psa : SelpgArgs) (st : Scan) : Int :=
  if psa.formFeed then (st.writer.length : Int)
  else (st.writer.length : Int) / psa.pageLength

/-- The pieces a pass in form-feed mode appends, by the page counter `p` at
which the first piece is read. -/
def pickPages {α : Type} (s e : Int) : Int → List α → List α
  | _, [] => []
  | p, c :: cs =>
    if s ≤ p ∧ p < e then c :: pickPages s e (p + 1) cs else pickPages s e (p + 1) cs

/-- The lines a pass in line-count mode appends, by the counters `p` and `l`
at which the first line is read. -/
def pickLines {α : Type} (s e len : Int) : Int → Int → List α → List α
  | _, _, [] => []
  | p, l, c :: cs =>
    let rest :=
      if l + 1 > len then pickLines s e len (p + 1) 1 cs
      else pickLines s e len p (l + 1) cs
    if s ≤ p ∧ p < e then c :: rest else rest

/-! ## The raw-token test -/

theorem findL_eq_true_iff (allArgs : List String) : findL allArgs = true ↔ "--l" ∈ allArgs := by
  induction allArgs with
  | nil => simp [findL]
  | cons a rest ih =>
    by_cases ha : a = "--l"
    · simp [findL, ha]
    · have ha1 : ¬ "--l" = a := fun h => ha h.symm
      simp [findL, ha, ha1, ih]

/-! ## The reader against the split -/

theorem splitAfter_ne_nil (d : Byte) (l : List Byte) : splitAfter d l ≠ [] := by
  induction l with
  | nil => simp [splitAfter]
  | cons b bs ih =>
    unfold splitAfter
    split
    · simp
    · split <;> simp

theorem splitAfter_readString (d : Byte) (l : List Byte) :
    splitAfter d l =
      (readString d l).1 ::
        (if (readString d l).2.1 = true then [] else splitAfter d (readString d l).2.2) := by
  induction l with
  | nil => simp [splitAfter, readString]
  | cons b bs ih =>
    by_cases hb : b = d
    · simp [splitAfter, readString, hb]
    · rw [splitAfter, readString]
      simp only [hb, if_false]
      rw [ih]

theorem readString_length (d : Byte) (l : List Byte) (h : (readString d l).2.1 = false) :
    (readString d l).2.2.length < l.length := by
  induction l with
  | nil => simp [readString] at h
  | cons b bs ih =>
    by_cases hb : b = d
    · simp [readString, hb]
    · rw [readString] at h ⊢
      simp only [hb, if_false] at h ⊢
      exact Nat.lt_succ_of_lt (ih h)

/-! ## The loops against the split -/

theorem pickPages_of_ge {α : Type} (s e : Int) (cs : List α) :
    ∀ p : Int, e ≤ p → pickPages s e p cs = [] := by
  induction cs with
  | nil => intro p _; rfl
  | cons c cs ih =>
    intro p hp
    have h1 : ¬ (s ≤ p ∧ p < e) := by omega
    rw [pickPages, if_neg h1]
    exact ih (p + 1) (by omega)

theorem pickLines_of_ge {α : Type} (s e len : Int) (cs : List α) :
    ∀ p l : Int, e ≤ p → pickLines s e len p l cs = [] := by
  induction cs with
  | nil => intro p l _; rfl
  | cons c cs ih =>
    intro p l hp
    have h1 : ¬ (s ≤ p ∧ p < e) := by omega
    simp only [pickLines, if_neg h1]
    split
    · exact ih (p + 1) 1 (by omega)
    · exact ih p (l + 1) hp

/-- With more fuel than unread bytes the form-feed loop ends, and what it has
appended are the pieces of the unread input read at a page counter in
`[startPage, endPage)`. -/
theorem formFeedLoop_writer (psa : SelpgArgs) :
    ∀ (fuel : Nat) (st : Scan), st.reader.length < fuel →
      ∃ st1, formFeedLoop psa fuel st = some st1 ∧
        st1.writer = st.writer ++
          pickPages psa.startPage psa.endPage st.pageCounter (splitAfter FF st.reader) := by
  intro fuel
  induction fuel with
  | zero => intro st h; exact absurd h (Nat.not_lt_zero _)
  | succ fuel ih =>
    intro st h
    have hlen := readString_length FF st.reader
    rw [formFeedLoop, splitAfter_readString FF st.reader]
    rcases hr : readString FF st.reader with ⟨page, eof, rest⟩
    rw [hr] at hlen
    simp only at hlen ⊢
    by_cases hstop : st.pageCounter + 1 = psa.endPage ∨ eof = true
    · rw [if_pos hstop]
      refine ⟨_, rfl, ?_⟩
      simp only [pickPages]
      rcases hstop with hp | he
      · have hnil : ∀ cs : List (List Byte),
            pickPages psa.startPage psa.endPage (st.pageCounter + 1) cs = [] :=
          fun cs => pickPages_of_ge _ _ cs _ (by omega)
        rw [hnil]
        split <;> simp
      · simp only [he, if_true, pickPages]
        split <;> simp
    · rw [if_neg hstop]
      have he : eof = false := by
        cases eof
        · rfl
        · exact absurd (Or.inr rfl) hstop
      subst he
      have hlt : rest.length < fuel := by
        have := hlen rfl
        omega
      obtain ⟨st1, h1, h2⟩ := ih
        { reader := rest,
          writer := if psa.startPage ≤ st.pageCounter ∧ st.pageCounter < psa.endPage then
            st.writer ++ [page] else st.writer,
          pageCounter := st.pageCounter + 1, lineCounter := st.lineCounter,
          reads := st.reads + 1 } hlt
      refine ⟨st1, h1, ?_⟩
      rw [h2]
      simp only [pickPages, Bool.false_eq_true, if_false]
      split <;> simp

/-- With more fuel than unread bytes the line-count loop ends, and what it has
appended are the lines of the unread input read at a page counter in
`[startPage, endPage)`. -/
theorem lineLoop_writer (psa : SelpgArgs) :
    ∀ (fuel : Nat) (st : Scan), st.reader.length < fuel →
      ∃ st1, lineLoop psa fuel st = some st1 ∧
        st1.writer = st.writer ++
          pickLines psa.startPage psa.endPage psa.pageLength st.pageCounter st.lineCounter
            (splitAfter NL st.reader) := by
  intro fuel
  induction fuel with
  | zero => intro st h; exact absurd h (Nat.not_lt_zero _)
  | succ fuel ih =>
    intro st h
    have hlen := readString_length NL st.reader
    rw [lineLoop, splitAfter_readString NL st.reader]
    rcases hr : readString NL st.reader with ⟨line, eof, rest⟩
    rw [hr] at hlen
    simp only at hlen ⊢
    by_cases hstop :
        (if st.lineCounter + 1 > psa.pageLength then st.pageCounter + 1 else st.pageCounter)
          = psa.endPage ∨ eof = true
    · rw [if_pos hstop]
      refine ⟨_, rfl, ?_⟩
      simp only [pickLines]
      rcases hstop with hp | he
      · have hnil : ∀ cs : List (List Byte),
            (if st.lineCounter + 1 > psa.pageLength then
              pickLines psa.startPage psa.endPage psa.pageLength (st.pageCounter + 1) 1 cs
            else
              pickLines psa.startPage psa.endPage psa.pageLength st.pageCounter
                (st.lineCounter + 1) cs) = [] := by
          intro cs
          split
          · rename_i hgt
            rw [if_pos hgt] at hp
            exact pickLines_of_ge _ _ _ cs _ _ (by omega)
          · rename_i hgt
            rw [if_neg hgt] at hp
            exact pickLines_of_ge _ _ _ cs _ _ (by omega)
        rw [hnil]
        split <;> simp
      · simp only [he, if_true, pickLines]
        split <;> simp
    · rw [if_neg hstop]
      have he : eof = false := by
        cases eof
        · rfl
        · exact absurd (Or.inr rfl) hstop
      subst he
      have hlt : rest.length < fuel := by
        have := hlen rfl
        omega
      obtain ⟨st1, h1, h2⟩ := ih
        { reader := rest,
          writer := if psa.startPage ≤ st.pageCounter ∧ st.pageCounter < psa.endPage then
            st.writer ++ [line] else st.writer,
          pageCounter :=
            if st.lineCounter + 1 > psa.pageLength then st.pageCounter + 1
            else st.pageCounter,
          lineCounter :=
            if st.lineCounter + 1 > psa.pageLength then 1 else st.lineCounter + 1,
          reads := st.reads + 1 } hlt
      refine ⟨st1, h1, ?_⟩
      rw [h2]
      simp only [pickLines, Bool.false_eq_true, if_false]
      by_cases hgt : st.lineCounter + 1 > psa.pageLength
      · simp only [if_pos hgt]
        split <;> simp
      · simp only [if_neg hgt]
        split <;> simp

/-! ## Page counters against indices -/

theorem pickPages_eq_pickFrom {α : Type} (s e : Int) (cs : List α) :
    ∀ (k : Nat) (p : Int), p = (k : Int) + 1 →
      pickPages s e p cs =
        pickFrom (fun i => decide (s - 1 ≤ (i : Int) ∧ (i : Int) < e - 1)) k cs := by
  induction cs with
  | nil => intro k p _; rfl
  | cons c cs ih =>
    intro k p hp
    have hnext := ih (k + 1) (p + 1) (by push_cast; omega)
    simp only [pickPages, pickFrom, hnext, decide_eq_true_eq]
    by_cases hc : s ≤ p ∧ p < e
    · have hc1 : s - 1 ≤ (k : Int) ∧ (k : Int) < e - 1 := by omega
      rw [if_pos hc, if_pos hc1]
    · have hc1 : ¬ (s - 1 ≤ (k : Int) ∧ (k : Int) < e - 1) := by omega
      rw [if_neg hc, if_neg hc1]

theorem page_in_range_iff (s e len p l k : Int) (hl1 : 1 ≤ l) (hl2 : l ≤ len)
    (hk : k = (p - 1) * len + (l - 1)) :
    (s ≤ p ∧ p < e) ↔ ((s - 1) * len ≤ k ∧ k < (e - 1) * len) := by
  have hlen : 0 < len := by omega
  constructor
  · rintro ⟨h1, h2⟩
    have a1 : (s - 1) * len ≤ (p - 1) * len :=
      Int.mul_le_mul_of_nonneg_right (by omega) (by omega)
    have a2 : p * len ≤ (e - 1) * len :=
      Int.mul_le_mul_of_nonneg_right (by omega) (by omega)
    have a3 : p * len = (p - 1) * len + len := by ring
    constructor <;> omega
  · rintro ⟨h1, h2⟩
    constructor
    · by_contra hc
      have a1 : p * len ≤ (s - 1) * len :=
        Int.mul_le_mul_of_nonneg_right (by omega) (by omega)
      have a3 : p * len = (p - 1) * len + len := by ring
      omega
    · by_contra hc
      have a1 : (e - 1) * len ≤ (p - 1) * len :=
        Int.mul_le_mul_of_nonneg_right (by omega) (by omega)
      omega

theorem pickLines_eq_pickFrom {α : Type} (s e len : Int) (hlen : 1 ≤ len) (cs : List α) :
    ∀ (k : Nat) (p l : Int), 1 ≤ l → l ≤ len → (k : Int) = (p - 1) * len + (l - 1) →
      pickLines s e len p l cs =
        pickFrom (fun i => decide ((s - 1) * len ≤ (i : Int) ∧ (i : Int) < (e - 1) * len))
          k cs := by
  induction cs with
  | nil => intro k p l _ _ _; rfl
  | cons c cs ih =>
    intro k p l hl1 hl2 hk
    have hiff := page_in_range_iff s e len p l k hl1 hl2 hk
    have hrest :
        (if l + 1 > len then pickLines s e len (p + 1) 1 cs
          else pickLines s e len p (l + 1) cs) =
        pickFrom (fun i => decide ((s - 1) * len ≤ (i : Int) ∧ (i : Int) < (e - 1) * len))
          (k + 1) cs := by
      split
      · rename_i hgt
        refine ih (k + 1) (p + 1) 1 (by omega) hlen ?_
        have hl : l = len := by omega
        subst hl
        push_cast
        rw [hk]
        ring
      · rename_i hgt
        refine ih (k + 1) p (l + 1) (by omega) (by omega) ?_
        push_cast
        rw [hk]
        ring
    simp only [pickLines, pickFrom, hrest, decide_eq_true_eq]
    by_cases hc : s ≤ p ∧ p < e
    · rw [if_pos hc, if_pos (hiff.mp hc)]
    · rw [if_neg hc, if_neg (fun h => hc (hiff.mpr h))]

/-! ## The selection as a whole -/

/-- In form-feed mode the selection returns, and its output is the pieces read
at a page counter in `[startPage, endPage)`. -/
theorem selected_formFeed (psa : SelpgArgs) (input : List Byte) (hf : psa.formFeed = true) :
    selected psa input =
      some (pickPages psa.startPage psa.endPage 1 (splitAfter FF input)).flatten := by
  obtain ⟨st1, h1, h2⟩ :=
    formFeedLoop_writer psa (input.length + 1) (Scan.init input) (Nat.lt_succ_self _)
  simp only [selected, scan, hf, if_true, h1, Option.map_some', Scan.output, h2]
  simp [Scan.init]

/-- In line-count mode the selection returns, and its output is the lines read
at a page counter in `[startPage, endPage)`. -/
theorem selected_lines (psa : SelpgArgs) (input : List Byte) (hf : psa.formFeed = false) :
    selected psa input =
      some (pickLines psa.startPage psa.endPage psa.pageLength 1 1
        (splitAfter NL input)).flatten := by
  obtain ⟨st1, h1, h2⟩ :=
    lineLoop_writer psa (input.length + 1) (Scan.init input) (Nat.lt_succ_self _)
  simp only [selected, scan, hf, Bool.false_eq_true, if_false, h1, Option.map_some',
    Scan.output, h2]
  simp [Scan.init]

/-! ## Index ranges as prefixes and suffixes -/

theorem pickFrom_range {α : Type} (a b : Nat) (cs : List α) :
    ∀ k : Nat, pickFrom (fun i => decide (a ≤ i ∧ i < b)) k cs =
      (cs.take (b - k)).drop (a - k) := by
  induction cs with
  | nil => intro k; simp [pickFrom]
  | cons c cs ih =>
    intro k
    simp only [pickFrom, ih (k + 1), decide_eq_true_eq]
    by_cases h1 : a ≤ k ∧ k < b
    · rw [if_pos h1]
      obtain ⟨m, hm⟩ : ∃ m, b - k = m + 1 := ⟨b - k - 1, by omega⟩
      have ha : a - k = 0 := by omega
      have ha1 : a - (k + 1) = 0 := by omega
      have hb1 : b - (k + 1) = m := by omega
      rw [hm, ha, ha1, hb1]
      simp
    · rw [if_neg h1]
      by_cases h2 : k < a
      · obtain ⟨j, hj⟩ : ∃ j, a - k = j + 1 := ⟨a - k - 1, by omega⟩
        have ha1 : a - (k + 1) = j := by omega
        rw [hj, ha1]
        by_cases h3 : k < b
        · obtain ⟨m, hm⟩ : ∃ m, b - k = m + 1 := ⟨b - k - 1, by omega⟩
          have hb1 : b - (k + 1) = m := by omega
          rw [hm, hb1]
          simp
        · have hb : b - k = 0 := by omega
          have hb1 : b - (k + 1) = 0 := by omega
          rw [hb, hb1]
          simp
      · have hb : b - k = 0 := by omega
        have hb1 : b - (k + 1) = 0 := by omega
        rw [hb, hb1]
        simp

theorem selectIndices_eq_take_drop {α : Type} (lo hi : Int) (cs : List α) :
    selectIndices lo hi cs = (cs.take hi.toNat).drop lo.toNat := by
  have hfun : (fun i : Nat => decide (lo ≤ (i : Int) ∧ (i : Int) < hi)) =
      (fun i : Nat => decide (lo.toNat ≤ i ∧ i < hi.toNat)) := by
    funext i
    have : (lo ≤ (i : Int) ∧ (i : Int) < hi) ↔ (lo.toNat ≤ i ∧ i < hi.toNat) := by omega
    simp only [this]
  rw [selectIndices, hfun, pickFrom_range]
  simp

theorem flatten_drop_take_splitAfter (d : Byte) (l : List Byte) :
    ∀ a b : Nat,
      (((splitAfter d l).take b).drop a).flatten = dropChunks d a (takeChunks d b l) := by
  induction l with
  | nil =>
    intro a b
    cases b with
    | zero => cases a <;> simp [takeChunks, dropChunks]
    | succ b => cases a <;> simp [splitAfter, takeChunks, dropChunks]
  | cons x xs ih =>
    intro a b
    cases b with
    | zero => cases a <;> simp [takeChunks, dropChunks]
    | succ b =>
      by_cases hx : x = d
      · cases a with
        | zero =>
          have := ih 0 b
          simp only [List.drop_zero, dropChunks] at this
          simp [splitAfter, takeChunks, dropChunks, hx, this]
        | succ a =>
          have := ih a b
          simp [splitAfter, takeChunks, dropChunks, hx, this]
      · obtain ⟨c, cs, hcs⟩ : ∃ c cs, splitAfter d xs = c :: cs := by
          cases h : splitAfter d xs with
          | nil => exact absurd h (splitAfter_ne_nil d xs)
          | cons c cs => exact ⟨c, cs, rfl⟩
        cases a with
        | zero =>
          have := ih 0 (b + 1)
          rw [hcs] at this
          simp only [List.drop_zero, dropChunks, List.take_succ_cons,
            List.flatten_cons] at this
          simp [splitAfter, takeChunks, dropChunks, hx, hcs, this]
        | succ a =>
          have := ih (a + 1) (b + 1)
          rw [hcs] at this
          simp only [List.take_succ_cons, List.drop_succ_cons] at this
          simp [splitAfter, takeChunks, dropChunks, hx, hcs, this]

theorem takeChunks_idem (d : Byte) (l : List Byte) :
    ∀ k : Nat, takeChunks d k (takeChunks d k l) = takeChunks d k l := by
  induction l with
  | nil => intro k; cases k <;> simp [takeChunks]
  | cons x xs ih =>
    intro k
    cases k with
    | zero => simp [takeChunks]
    | succ k =>
      by_cases hx : x = d
      · simp [takeChunks, hx, ih k]
      · simp [takeChunks, hx, ih (k + 1)]

theorem takeChunks_append_dropChunks (d : Byte) (l : List Byte) :
    ∀ k : Nat, takeChunks d k l ++ dropChunks d k l = l := by
  induction l with
  | nil => intro k; cases k <;> simp [takeChunks, dropChunks]
  | cons x xs ih =>
    intro k
    cases k with
    | zero => simp [takeChunks, dropChunks]
    | succ k =>
      by_cases hx : x = d
      · simp [takeChunks, dropChunks, hx, ih k]
      · simp [takeChunks, dropChunks, hx, ih (k + 1)]

/-! ## The selection as a prefix of a suffix -/

theorem toNat_mul_one (k : Int) : (k * 1).toNat = k.toNat := by simp

/-- The selection returns, and what it has appended are the pieces of the
input from piece `(startPage-1) * piecesPerPage` up to, not including, piece
`(endPage-1) * piecesPerPage`. -/
theorem scan_writer (psa : SelpgArgs) (input : List Byte) (hl : 1 ≤ psa.pageLength) :
    ∃ st, scan psa input = some st ∧
      st.writer =
        ((splitAfter (delimiter psa) input).take
          ((psa.endPage - 1) * piecesPerPage psa).toNat).drop
          ((psa.startPage - 1) * piecesPerPage psa).toNat := by
  cases hf : psa.formFeed with
  | true =>
    obtain ⟨st1, h1, h2⟩ :=
      formFeedLoop_writer psa (input.length + 1) (Scan.init input) (Nat.lt_succ_self _)
    refine ⟨st1, by simp [scan, hf, h1], ?_⟩
    rw [h2]
    simp only [Scan.init, List.nil_append, delimiter, piecesPerPage, hf, if_true]
    rw [pickPages_eq_pickFrom psa.startPage psa.endPage _ 0 1 (by simp)]
    have := selectIndices_eq_take_drop (psa.startPage - 1) (psa.endPage - 1)
      (splitAfter FF input)
    rw [selectIndices] at this
    rw [this, toNat_mul_one, toNat_mul_one]
  | false =>
    obtain ⟨st1, h1, h2⟩ :=
      lineLoop_writer psa (input.length + 1) (Scan.init input) (Nat.lt_succ_self _)
    refine ⟨st1, by simp [scan, hf, h1], ?_⟩
    rw [h2]
    simp only [Scan.init, List.nil_append, delimiter, piecesPerPage, hf,
      Bool.false_eq_true, if_false]
    rw [pickLines_eq_pickFrom psa.startPage psa.endPage psa.pageLength hl _ 0 1 1
      (by omega) hl (by simp)]
    have := selectIndices_eq_take_drop ((psa.startPage - 1) * psa.pageLength)
      ((psa.endPage - 1) * psa.pageLength) (splitAfter NL input)
    rw [selectIndices] at this
    rw [this]

/-- The selection returns, and its output is what remains of the first
`endPage - 1` pages of the input once the first `startPage - 1` are removed. -/
theorem selected_eq_pages (psa : SelpgArgs) (input : List Byte) (hl : 1 ≤ psa.pageLength) :
    selected psa input =
      some (dropPages psa (psa.startPage - 1) (takePages psa (psa.endPage - 1) input)) := by
  obtain ⟨st, h1, h2⟩ := scan_writer psa input hl
  rw [selected, h1, Option.map_some', Scan.output, h2, flatten_drop_take_splitAfter]
  rfl

/-! ## Counting pieces -/

theorem numPieces_cons_delim (d : Byte) (xs : List Byte) :
    numPieces d (d :: xs) = numPieces d xs + 1 := by
  simp [numPieces, splitAfter]

theorem numPieces_cons_other (d x : Byte) (xs : List Byte) (hx : ¬ x = d) :
    numPieces d xs ≤ numPieces d (x :: xs) ∧ 1 ≤ numPieces d (x :: xs) := by
  obtain ⟨c, cs, hcs⟩ : ∃ c cs, splitAfter d xs = c :: cs := by
    cases h : splitAfter d xs with
    | nil => exact absurd h (splitAfter_ne_nil d xs)
    | cons c cs => exact ⟨c, cs, rfl⟩
  simp only [numPieces, splitAfter, hx, if_false, hcs]
  by_cases hc : c.isEmpty = true
  · simp [List.filter_cons, hc]
  · simp [List.filter_cons, hc]

theorem takeChunks_of_numPieces_le (d : Byte) (l : List Byte) :
    ∀ k : Nat, numPieces d l ≤ k → takeChunks d k l = l := by
  induction l with
  | nil => intro k _; cases k <;> simp [takeChunks]
  | cons x xs ih =>
    intro k hk
    by_cases hx : x = d
    · subst hx
      rw [numPieces_cons_delim] at hk
      obtain ⟨j, rfl⟩ : ∃ j, k = j + 1 := ⟨k - 1, by omega⟩
      simp [takeChunks, ih j (by omega)]
    · have h := numPieces_cons_other d x xs hx
      obtain ⟨j, rfl⟩ : ∃ j, k = j + 1 := ⟨k - 1, by omega⟩
      simp [takeChunks, hx, ih (j + 1) (by omega)]

theorem dropChunks_of_numPieces_le (d : Byte) (l : List Byte) :
    ∀ k : Nat, numPieces d l ≤ k → dropChunks d k l = [] := by
  induction l with
  | nil => intro k _; cases k <;> simp [dropChunks]
  | cons x xs ih =>
    intro k hk
    by_cases hx : x = d
    · subst hx
      rw [numPieces_cons_delim] at hk
      obtain ⟨j, rfl⟩ : ∃ j, k = j + 1 := ⟨k - 1, by omega⟩
      simp [dropChunks, ih j (by omega)]
    · have h := numPieces_cons_other d x xs hx
      obtain ⟨j, rfl⟩ : ∃ j, k = j + 1 := ⟨k - 1, by omega⟩
      simp [dropChunks, hx, ih (j + 1) (by omega)]

theorem dropChunks_takeChunks_eq_nil (d : Byte) (l : List Byte) :
    ∀ a b : Nat, dropChunks d a l = [] → dropChunks d a (takeChunks d b l) = [] := by
  induction l with
  | nil => intro a b _; cases a <;> cases b <;> simp [takeChunks, dropChunks]
  | cons x xs ih =>
    intro a b h
    cases b with
    | zero => cases a <;> simp [takeChunks, dropChunks]
    | succ b =>
      cases a with
      | zero => simp [dropChunks] at h
      | succ a =>
        by_cases hx : x = d
        · simp only [dropChunks, hx, if_true] at h
          simp [takeChunks, dropChunks, hx, ih a b h]
        · simp only [dropChunks, hx, if_false] at h
          simp [takeChunks, dropChunks, hx, ih (a + 1) (b + 1) h]

theorem length_splitAfter (d : Byte) (l : List Byte) :
    (splitAfter d l).length = l.count d + 1 := by
  induction l with
  | nil => simp [splitAfter]
  | cons x xs ih =>
    by_cases hx : x = d
    · subst hx
      simp [splitAfter, ih]
    · obtain ⟨c, cs, hcs⟩ : ∃ c cs, splitAfter d xs = c :: cs := by
        cases h : splitAfter d xs with
        | nil => exact absurd h (splitAfter_ne_nil d xs)
        | cons c cs => exact ⟨c, cs, rfl⟩
      rw [hcs] at ih
      simp only [splitAfter, hx, if_false, hcs, List.length_cons] at ih ⊢
      rw [List.count_cons_of_ne (fun h => hx h.symm)]
      exact ih

/-! ## Pages against pieces -/

theorem le_mul_of_ceil_le (m n q : Nat) (hn : 0 < n) (h : (m + n - 1) / n ≤ q) :
    m ≤ q * n := by
  by_contra hc
  have h1 : (q + 1) * n ≤ m + n - 1 := by
    have : (q + 1) * n = q * n + n := by ring
    omega
  have h2 : q + 1 ≤ (m + n - 1) / n := (Nat.le_div_iff_mul_le hn).mpr h1
  omega

theorem toNat_mul_natCast (q n : Nat) : ((q : Int) * (n : Int)).toNat = q * n := by
  rw [← Nat.cast_mul, Int.toNat_natCast]

/-- An input of at most `k` pages has at most `k * piecesPerPage` non-empty pieces. -/
theorem numPieces_le_of_numPages_le (psa : SelpgArgs) (input : List Byte) (k : Int)
    (hl : 1 ≤ psa.pageLength) (h : (numPages psa input : Int) ≤ k) :
    numPieces (delimiter psa) input ≤ (k * piecesPerPage psa).toNat := by
  obtain ⟨q, rfl⟩ : ∃ q : Nat, k = q := Int.eq_ofNat_of_zero_le (by omega)
  obtain ⟨n, hn⟩ : ∃ n : Nat, psa.pageLength = n := Int.eq_ofNat_of_zero_le (by omega)
  cases hf : psa.formFeed with
  | true =>
    simp only [numPages, delimiter, piecesPerPage, hf, if_true] at h ⊢
    simp only [mul_one, Int.toNat_natCast]
    exact_mod_cast h
  | false =>
    simp only [numPages, delimiter, piecesPerPage, hf, Bool.false_eq_true, if_false] at h ⊢
    rw [hn] at h ⊢
    rw [Int.toNat_natCast] at h
    rw [toNat_mul_natCast]
    have hn0 : 0 < n := by omega
    exact le_mul_of_ceil_le _ n q hn0 (by exact_mod_cast h)

/-! ## The amount appended -/

theorem min_mul_sub_div (a b m n : Nat) (hn : 0 < n) :
    (min (b * n) m - a * n) / n = min b (m / n) - a := by
  have hmin : min (b * n) m / n = min b (m / n) := by
    rcases le_total (b * n) m with h | h
    · have h1 : b ≤ m / n := (Nat.le_div_iff_mul_le hn).mpr h
      rw [min_eq_left h, min_eq_left h1, Nat.mul_div_cancel _ hn]
    · have h1 : m / n ≤ b := by
        have := Nat.div_le_div_right (c := n) h
        rwa [Nat.mul_div_cancel _ hn] at this
      rw [min_eq_right h, min_eq_right h1]
  rw [← hmin]
  generalize min (b * n) m = x
  by_cases hx : n * a ≤ x
  · rw [Nat.mul_comm a n, Nat.sub_mul_div x n a hx]
  · have h1 : x - a * n = 0 := by
      have : n * a = a * n := Nat.mul_comm n a
      omega
    have h2 : x / n < a := by
      apply Nat.div_lt_of_lt_mul
      omega
    rw [h1, Nat.zero_div]
    omega

/-- The number of strings a pass appends. -/
theorem scan_writer_length (psa : SelpgArgs) (input : List Byte) (hl : 1 ≤ psa.pageLength) :
    ∃ st, scan psa input = some st ∧
      st.writer.length =
        min ((psa.endPage - 1) * piecesPerPage psa).toNat (input.count (delimiter psa) + 1) -
          ((psa.startPage - 1) * piecesPerPage psa).toNat := by
  obtain ⟨st, h1, h2⟩ := scan_writer psa input hl
  refine ⟨st, h1, ?_⟩
  rw [h2, List.length_drop, List.length_take, length_splitAfter]

/-! ## The number of reads -/

theorem readString_count (d : Byte) (l : List Byte) :
    l.count d = if (readString d l).2.1 = true then 0 else (readString d l).2.2.count d + 1 := by
  have h1 := length_splitAfter d l
  rw [splitAfter_readString d l] at h1
  by_cases he : (readString d l).2.1 = true
  · rw [if_pos he] at h1 ⊢
    simp only [List.length_cons, List.length_nil] at h1
    omega
  · rw [if_neg he] at h1 ⊢
    rw [List.length_cons, length_splitAfter] at h1
    omega

/-- The form-feed loop makes one read per chunk until the page counter reaches
`endPage` or the input ends. -/
theorem formFeedLoop_reads (psa : SelpgArgs) :
    ∀ (fuel : Nat) (st : Scan), st.reader.length < fuel →
      ∃ st1, formFeedLoop psa fuel st = some st1 ∧
        st1.reads = st.reads +
          (if st.pageCounter < psa.endPage then
            min (psa.endPage - st.pageCounter).toNat (st.reader.count FF + 1)
          else st.reader.count FF + 1) := by
  intro fuel
  induction fuel with
  | zero => intro st h; exact absurd h (Nat.not_lt_zero _)
  | succ fuel ih =>
    intro st h
    have hlen := readString_length FF st.reader
    have hcount := readString_count FF st.reader
    rw [formFeedLoop]
    rcases hr : readString FF st.reader with ⟨page, eof, rest⟩
    rw [hr] at hlen hcount
    simp only at hlen hcount ⊢
    by_cases hstop : st.pageCounter + 1 = psa.endPage ∨ eof = true
    · rw [if_pos hstop]
      refine ⟨_, rfl, ?_⟩
      simp only
      rcases hstop with hp | he
      · have hlt : st.pageCounter < psa.endPage := by omega
        rw [if_pos hlt]
        have : (psa.endPage - st.pageCounter).toNat = 1 := by omega
        omega
      · rw [if_pos he] at hcount
        rw [hcount]
        split <;> omega
    · rw [if_neg hstop]
      have he : eof = false := by
        cases eof
        · rfl
        · exact absurd (Or.inr rfl) hstop
      subst he
      have hlt : rest.length < fuel := by
        have := hlen rfl
        omega
      obtain ⟨st1, h1, h2⟩ := ih
        { reader := rest,
          writer := if psa.startPage ≤ st.pageCounter ∧ st.pageCounter < psa.endPage then
            st.writer ++ [page] else st.writer,
          pageCounter := st.pageCounter + 1, lineCounter := st.lineCounter,
          reads := st.reads + 1 } hlt
      refine ⟨st1, h1, ?_⟩
      rw [h2]
      simp only [Bool.false_eq_true, if_false] at hcount ⊢
      rw [hcount]
      have hne : ¬ st.pageCounter + 1 = psa.endPage := fun h => hstop (Or.inl h)
      split <;> split <;> omega

/-- The line-count loop makes at least one read, and at most one read per
delimiter and one more. -/
theorem lineLoop_reads_le (psa : SelpgArgs) :
    ∀ (fuel : Nat) (st : Scan), st.reader.length < fuel →
      ∃ st1, lineLoop psa fuel st = some st1 ∧
        st.reads + 1 ≤ st1.reads ∧ st1.reads ≤ st.reads + st.reader.count NL + 1 := by
  intro fuel
  induction fuel with
  | zero => intro st h; exact absurd h (Nat.not_lt_zero _)
  | succ fuel ih =>
    intro st h
    have hlen := readString_length NL st.reader
    have hcount := readString_count NL st.reader
    rw [lineLoop]
    rcases hr : readString NL st.reader with ⟨line, eof, rest⟩
    rw [hr] at hlen hcount
    simp only at hlen hcount ⊢
    by_cases hstop :
        (if st.lineCounter + 1 > psa.pageLength then st.pageCounter + 1 else st.pageCounter)
          = psa.endPage ∨ eof = true
    · rw [if_pos hstop]
      refine ⟨_, rfl, ?_⟩
      simp only
      omega
    · rw [if_neg hstop]
      have he : eof = false := by
        cases eof
        · rfl
        · exact absurd (Or.inr rfl) hstop
      subst he
      have hlt : rest.length < fuel := by
        have := hlen rfl
        omega
      obtain ⟨st1, h1, h2⟩ := ih
        { reader := rest,
          writer := if psa.startPage ≤ st.pageCounter ∧ st.pageCounter < psa.endPage then
            st.writer ++ [line] else st.writer,
          pageCounter :=
            if st.lineCounter + 1 > psa.pageLength then st.pageCounter + 1
            else st.pageCounter,
          lineCounter :=
            if st.lineCounter + 1 > psa.pageLength then 1 else st.lineCounter + 1,
          reads := st.reads + 1 } hlt
      refine ⟨st1, h1, ?_⟩
      simp only [Bool.false_eq_true, if_false] at hcount h2
      omega

/-- The line-count loop, started before `endPage`, makes one read per line
until the page counter reaches `endPage` or the input ends. -/
theorem lineLoop_reads (psa : SelpgArgs) (hl : 1 ≤ psa.pageLength) :
    ∀ (fuel : Nat) (st : Scan), st.reader.length < fuel →
      st.pageCounter < psa.endPage → 1 ≤ st.lineCounter → st.lineCounter ≤ psa.pageLength →
      ∃ st1, lineLoop psa fuel st = some st1 ∧
        (st1.reads : Int) = st.reads +
          min ((psa.endPage - st.pageCounter) * psa.pageLength - (st.lineCounter - 1))
            ((st.reader.count NL : Int) + 1) := by
  intro fuel
  induction fuel with
  | zero => intro st h; exact absurd h (Nat.not_lt_zero _)
  | succ fuel ih =>
    intro st h hp hl1 hl2
    have hlen := readString_length NL st.reader
    have hcount := readString_count NL st.reader
    have hmul : psa.pageLength ≤ (psa.endPage - st.pageCounter) * psa.pageLength :=
      le_mul_of_one_le_left (by omega) (by omega)
    have hring : (psa.endPage - (st.pageCounter + 1)) * psa.pageLength =
        (psa.endPage - st.pageCounter) * psa.pageLength - psa.pageLength := by ring
    rw [lineLoop]
    rcases hr : readString NL st.reader with ⟨line, eof, rest⟩
    rw [hr] at hlen hcount
    simp only at hlen hcount ⊢
    by_cases hstop :
        (if st.lineCounter + 1 > psa.pageLength then st.pageCounter + 1 else st.pageCounter)
          = psa.endPage ∨ eof = true
    · rw [if_pos hstop]
      refine ⟨_, rfl, ?_⟩
      simp only
      rcases hstop with hq | he
      · by_cases hgt : st.lineCounter + 1 > psa.pageLength
        · rw [if_pos hgt] at hq
          have h1 : psa.endPage - st.pageCounter = 1 := by omega
          rw [h1, one_mul]
          push_cast
          omega
        · rw [if_neg hgt] at hq
          omega
      · rw [if_pos he] at hcount
        rw [hcount]
        push_cast
        omega
    · rw [if_neg hstop]
      have he : eof = false := by
        cases eof
        · rfl
        · exact absurd (Or.inr rfl) hstop
      subst he
      have hlt : rest.length < fuel := by
        have := hlen rfl
        omega
      simp only [Bool.false_eq_true, if_false] at hcount
      by_cases hgt : st.lineCounter + 1 > psa.pageLength
      · have hne : ¬ st.pageCounter + 1 = psa.endPage := by
          intro hq
          exact hstop (Or.inl (by rw [if_pos hgt]; exact hq))
        obtain ⟨st1, h1, h2⟩ := ih
          { reader := rest,
            writer := if psa.startPage ≤ st.pageCounter ∧ st.pageCounter < psa.endPage then
              st.writer ++ [line] else st.writer,
            pageCounter := st.pageCounter + 1, lineCounter := 1,
            reads := st.reads + 1 } hlt (by simp only; omega) (by simp) (by simpa using hl)
        simp only [if_pos hgt]
        refine ⟨st1, h1, ?_⟩
        rw [h2]
        simp only
        rw [hring, hcount]
        push_cast
        omega
      · obtain ⟨st1, h1, h2⟩ := ih
          { reader := rest,
            writer := if psa.startPage ≤ st.pageCounter ∧ st.pageCounter < psa.endPage then
              st.writer ++ [line] else st.writer,
            pageCounter := st.pageCounter, lineCounter := st.lineCounter + 1,
            reads := st.reads + 1 } hlt hp (by simp only; omega) (by simp only; omega)
        simp only [if_neg hgt]
        refine ⟨st1, h1, ?_⟩
        rw [h2]
        simp only
        rw [hcount]
        push_cast
        omega

/-! ## Nested prefixes and adjacent ranges -/

theorem takeChunks_takeChunks (d : Byte) (l : List Byte) :
    ∀ a b : Nat, a ≤ b → takeChunks d a (takeChunks d b l) = takeChunks d a l := by
  induction l with
  | nil => intro a b _; cases a <;> cases b <;> simp [takeChunks]
  | cons x xs ih =>
    intro a b hab
    cases a with
    | zero => simp [takeChunks]
    | succ a =>
      obtain ⟨c, rfl⟩ : ∃ c, b = c + 1 := ⟨b - 1, by omega⟩
      by_cases hx : x = d
      · simp [takeChunks, hx, ih a c (by omega)]
      · simp [takeChunks, hx, ih (a + 1) (c + 1) hab]

theorem drop_take_append_drop_take {α : Type} (cs : List α) :
    ∀ a b c : Nat, a ≤ b → b ≤ c →
      (cs.take b).drop a ++ (cs.take c).drop b = (cs.take c).drop a := by
  induction cs with
  | nil => intro a b c _ _; simp
  | cons x xs ih =>
    intro a b c hab hbc
    cases b with
    | zero =>
      have ha : a = 0 := by omega
      subst ha
      simp
    | succ b =>
      obtain ⟨k, rfl⟩ : ∃ k, c = k + 1 := ⟨c - 1, by omega⟩
      cases a with
      | zero =>
        have := ih 0 b k (Nat.zero_le _) (by omega)
        simp only [List.drop_zero] at this
        simp [this]
      | succ a =>
        have := ih a b k (by omega) (by omega)
        simpa using this

theorem toNat_mul_le_toNat_mul (a b u : Int) (hab : a ≤ b) (hu : 0 ≤ u) :
    (a * u).toNat ≤ (b * u).toNat :=
  Int.toNat_le_toNat (Int.mul_le_mul_of_nonneg_right hab hu)

theorem one_le_piecesPerPage (psa : SelpgArgs) (hl : 1 ≤ psa.pageLength) :
    1 ≤ piecesPerPage psa := by
  unfold piecesPerPage
  split <;> omega

/-- The selection returns, and its output is the concatenation of the pieces
from piece `(startPage-1) * piecesPerPage` up to, not including, piece
`(endPage-1) * piecesPerPage`. -/
theorem selected_eq_flatten (psa : SelpgArgs) (input : List Byte) (hl : 1 ≤ psa.pageLength) :
    selected psa input =
      some (((splitAfter (delimiter psa) input).take
        ((psa.endPage - 1) * piecesPerPage psa).toNat).drop
        ((psa.startPage - 1) * piecesPerPage psa).toNat).flatten := by
  obtain ⟨st, h1, h2⟩ := scan_writer psa input hl
  rw [selected, h1, Option.map_some', Scan.output, h2]

/-! ## The run around the selection -/

theorem scan_some (psa : SelpgArgs) (input : List Byte) : ∃ st, scan psa input = some st := by
  cases hf : psa.formFeed with
  | true =>
    obtain ⟨st1, h1, _⟩ :=
      formFeedLoop_writer psa (input.length + 1) (Scan.init input) (Nat.lt_succ_self _)
    exact ⟨st1, by simp [scan, hf, h1]⟩
  | false =>
    obtain ⟨st1, h1, _⟩ :=
      lineLoop_writer psa (input.length + 1) (Scan.init input) (Nat.lt_succ_self _)
    exact ⟨st1, by simp [scan, hf, h1]⟩

/-- With more fuel than unread bytes the draining loop ends at the end of the
stream, after one read per byte and one more. -/
theorem drainLoop_eq :
    ∀ (fuel : Nat) (l : List Byte) (reads : Nat), l.length < fuel →
      drainLoop fuel l reads = some ([], reads + l.length + 1) := by
  intro fuel
  induction fuel with
  | zero => intro l reads h; exact absurd h (Nat.not_lt_zero _)
  | succ fuel ih =>
    intro l reads h
    cases l with
    | nil => simp [drainLoop]
    | cons b bs =>
      rw [drainLoop, ih bs (reads + 1) (by simpa using h)]
      simp only [List.length_cons]
      congr 2
      omega

theorem spool_stdout_congr (w : World) (text : List Byte) (o1 o2 : Outcome)
    (h : o1.stdout = o2.stdout) : (spool w text o1).stdout = (spool w text o2).stdout := by
  unfold spool processError
  split
  · exact h
  · split
    · exact h
    · split
      · exact h
      · simp only [h]

theorem prefix_spool_stdout (w : World) (text : List Byte) (o : Outcome) :
    o.stdout <+: (spool w text o).stdout := by
  unfold spool processError
  split
  · exact List.prefix_refl _
  · split
    · exact List.prefix_refl _
    · split
      · exact List.prefix_refl _
      · exact List.prefix_append _ _

theorem spool_reader (w : World) (text : List Byte) (o : Outcome) :
    (spool w text o).reader = o.reader := by
  unfold spool processError
  split
  · rfl
  · split
    · rfl
    · split <;> rfl

/-- The run of `processInput` on standard input: the selection, then the
draining of the stream, then the output. -/
theorem processInput_stdin (w : World) (psa : SelpgArgs) (hfile : psa.inputFile = "") :
    ∃ st, scan psa w.stdin = some st ∧
      processInput w psa =
        some (if psa.destination != "" then
          spool w st.output
            { stdout := st.output, stderr := [], spoolerIn := [], reader := some [],
              reads := st.reads + st.reader.length + 1, ending := Ending.exit 0 }
        else
          { stdout := st.output, stderr := [], spoolerIn := [], reader := some [],
            reads := st.reads + st.reader.length + 1, ending := Ending.exit 0 }) := by
  obtain ⟨st, hst⟩ := scan_some psa w.stdin
  refine ⟨st, hst, ?_⟩
  simp only [processInput, hfile, if_true, hst,
    drainLoop_eq (st.reader.length + 1) st.reader st.reads (Nat.lt_succ_self _)]
  split <;> rfl

/-- The run of `processInput` on a file that opens: the selection, then the
output. -/
theorem processInput_file (w : World) (psa : SelpgArgs) (content : List Byte)
    (hfile : ¬ psa.inputFile = "") (hopen : w.openFile psa.inputFile = Except.ok content) :
    ∃ st, scan psa content = some st ∧
      processInput w psa =
        some (if psa.destination != "" then
          spool w st.output
            { stdout := st.output, stderr := [], spoolerIn := [], reader := some st.reader,
              reads := st.reads, ending := Ending.exit 0 }
        else
          { stdout := st.output, stderr := [], spoolerIn := [], reader := some st.reader,
            reads := st.reads, ending := Ending.exit 0 }) := by
  obtain ⟨st, hst⟩ := scan_some psa content
  refine ⟨st, hst, ?_⟩
  simp only [processInput, hfile, if_false, hopen, hst]
  split <;> rfl

/-- The selection depends on the page numbers, the page length and the mode
of the request only. -/
theorem scan_congr (psa1 psa2 : SelpgArgs) (input : List Byte)
    (hs : psa1.startPage = psa2.startPage) (he : psa1.endPage = psa2.endPage)
    (hl : psa1.pageLength = psa2.pageLength) (hf : psa1.formFeed = psa2.formFeed) :
    scan psa1 input = scan psa2 input := by
  have h1 : ∀ fuel st, formFeedLoop psa1 fuel st = formFeedLoop psa2 fuel st := by
    intro fuel
    induction fuel with
    | zero => intro st; rfl
    | succ fuel ih =>
      intro st
      simp only [formFeedLoop, ih, hs, he]
  have h2 : ∀ fuel st, lineLoop psa1 fuel st = lineLoop psa2 fuel st := by
    intro fuel
    induction fuel with
    | zero => intro st; rfl
    | succ fuel ih =>
      intro st
      simp only [lineLoop, ih, hs, he, hl]
  simp only [scan, h1, h2, hf]

theorem scan_withInputFile (psa : SelpgArgs) (file : String) (input : List Byte) :
    scan (withInputFile psa file) input = scan psa input :=
  scan_congr _ _ input rfl rfl rfl rfl

/-! ## Claims -/

/-- C1: in line-count mode, for every request with `pageLength ≥ 1` (the
validated ones, `1 ≤ startPage ≤ endPage`, among them), the selection returns and the bytes accumulated are the
concatenation, in order, of the lines of the input (split after each newline,
terminator kept, unterminated remainder last) whose 0-based index `i` satisfies
`(startPage-1)*pageLength ≤ i < (endPage-1)*pageLength`. -/
theorem lineCount_selects_slice (psa : SelpgArgs) (input : List Byte)
    (hl : 1 ≤ psa.pageLength) (hf : psa.formFeed = false) :
    selected psa input =
      some (selectIndices ((psa.startPage - 1) * psa.pageLength)
        ((psa.endPage - 1) * psa.pageLength) (splitAfter NL input)).flatten := by
  rw [selected_lines psa input hf,
    pickLines_eq_pickFrom psa.startPage psa.endPage psa.pageLength hl _ 0 1 1
      (by omega) hl (by simp)]
  rfl

set_option maxRecDepth 1000000 in
/-- C1 on the test file of lines `1..150` with `pageLength = 72`: pages `[1,2)`
give lines `1..72` and pages `[2,3)` give lines `73..144`. -/
theorem lineCount_selects_slice_witness :
    selected (request 1 2 72 false) testPageLength = some (linesFromTo 1 72) ∧
    selected (request 2 3 72 false) testPageLength = some (linesFromTo 73 144) :=
  ⟨(lineCount_selects_slice _ _ (by decide) rfl).trans (by decide),
   (lineCount_selects_slice _ _ (by decide) rfl).trans (by decide)⟩

/-- C2: in form-feed mode, for every request (the validated ones,
`1 ≤ startPage ≤ endPage`, among them), the selection returns and the bytes accumulated are the concatenation, in
order, of the chunks of the input (split after each form feed, form feed kept,
unterminated remainder last) whose 0-based index `i` satisfies
`startPage-1 ≤ i < endPage-1`. -/
theorem formFeed_selects_slice (psa : SelpgArgs) (input : List Byte)
    (hf : psa.formFeed = true) :
    selected psa input =
      some (selectIndices (psa.startPage - 1) (psa.endPage - 1)
        (splitAfter FF input)).flatten := by
  rw [selected_formFeed psa input hf,
    pickPages_eq_pickFrom psa.startPage psa.endPage _ 0 1 (by simp)]
  rfl

/-- C2 on the test file `1\f2\f3\f4\f5\f`: pages `[2,4)` give `2\f3\f`. -/
theorem formFeed_selects_slice_witness :
    testFormFeed = [49, 12, 50, 12, 51, 12, 52, 12, 53, 12] ∧
    selected (request 2 4 72 true) testFormFeed = some [50, 12, 51, 12] :=
  ⟨by decide,
   (formFeed_selects_slice _ _ rfl).trans (by decide)⟩

/-- C3: `processArgs` fails exactly when `startPage < 1`, or `endPage < 1`, or
`endPage < startPage`, or `pageLength < 1`, or form-feed mode comes with a page
length other than 72 or a raw token `--l`, or more than one positional argument
is given; otherwise it succeeds; and a request it accepts has `startPage ≥ 1`,
`endPage ≥ startPage` and `pageLength ≥ 1`. -/
theorem processArgs_fails_iff (psa : SelpgArgs) (nonFlags allArgs : List String) :
    ((∃ msg, (processArgs psa nonFlags allArgs).1 = Except.error msg) ↔
      (psa.startPage < 1 ∨ psa.endPage < 1 ∨ psa.endPage < psa.startPage ∨
        psa.pageLength < 1 ∨
        (psa.formFeed = true ∧ (psa.pageLength ≠ 72 ∨ "--l" ∈ allArgs)) ∨
        1 < nonFlags.length)) ∧
    ((processArgs psa nonFlags allArgs).1 = Except.ok () ↔
      ¬ (psa.startPage < 1 ∨ psa.endPage < 1 ∨ psa.endPage < psa.startPage ∨
        psa.pageLength < 1 ∨
        (psa.formFeed = true ∧ (psa.pageLength ≠ 72 ∨ "--l" ∈ allArgs)) ∨
        1 < nonFlags.length)) ∧
    ((processArgs psa nonFlags allArgs).1 = Except.ok () →
      1 ≤ psa.startPage ∧ psa.startPage ≤ psa.endPage ∧ 1 ≤ psa.pageLength) := by
  have hfind := findL_eq_true_iff allArgs
  unfold processArgs
  by_cases h1 : psa.startPage < 1
  · simp [h1]
  by_cases h2 : psa.endPage < 1
  · simp [h1, h2]
  by_cases h3 : psa.endPage < psa.startPage
  · simp [h1, h2, h3]
  by_cases h4 : psa.pageLength < 1
  · simp [h1, h2, h3, h4]
  by_cases h5 : (psa.formFeed && (psa.pageLength != 72 || findL allArgs)) = true
  · have h5a : psa.formFeed = true ∧ (psa.pageLength ≠ 72 ∨ "--l" ∈ allArgs) := by
      simpa [hfind] using h5
    rw [if_neg h1, if_neg h2, if_neg h3, if_neg h4, if_pos h5]
    simp [h5a]
  have h5a : ¬ (psa.formFeed = true ∧ (psa.pageLength ≠ 72 ∨ "--l" ∈ allArgs)) := by
    simpa [hfind] using h5
  by_cases h6 : nonFlags.length > 1
  · simp only [h1, h2, h3, h4, h5, h6, if_true, if_false]
    simp
  have h6a : ¬ 1 < nonFlags.length := h6
  simp only [h1, h2, h3, h4, h5, h6, if_false]
  have hinv : 1 ≤ psa.startPage ∧ psa.startPage ≤ psa.endPage ∧ 1 ≤ psa.pageLength := by
    omega
  by_cases h7 : nonFlags.length = 1
  · simp only [dif_pos h7]
    simp [h1, h2, h3, h4, h5a, h6a, hinv]
  · simp only [dif_neg h7]
    simp [h1, h2, h3, h4, h5a, h6a, hinv]

/-- C4: the error `processArgs` reports is the one named for the first violated
condition in the order `InvalidStartPage` (`startPage < 1`), `InvalidEndPage`
(`endPage < 1`), `EndBeforeStart` (`endPage < startPage`), `InvalidPageLength`
(`pageLength < 1`), `ConflictingDelimiters` (form feed with a page length other
than 72 or a raw token `--l`), `TooManyInputFiles` (more than one positional
argument); the six messages are pairwise distinct; `startPage = 0, endPage = 5`
reports `InvalidStartPage` and `startPage = 3, endPage = 2` reports
`EndBeforeStart`. -/
theorem processArgs_reports_first_violation (psa : SelpgArgs)
    (nonFlags allArgs : List String) :
    (psa.startPage < 1 →
      (processArgs psa nonFlags allArgs).1 =
        Except.error ArgError.InvalidStartPage.message) ∧
    (¬ psa.startPage < 1 → psa.endPage < 1 →
      (processArgs psa nonFlags allArgs).1 =
        Except.error ArgError.InvalidEndPage.message) ∧
    (¬ psa.startPage < 1 → ¬ psa.endPage < 1 → psa.endPage < psa.startPage →
      (processArgs psa nonFlags allArgs).1 =
        Except.error ArgError.EndBeforeStart.message) ∧
    (¬ psa.startPage < 1 → ¬ psa.endPage < 1 → ¬ psa.endPage < psa.startPage →
      psa.pageLength < 1 →
      (processArgs psa nonFlags allArgs).1 =
        Except.error ArgError.InvalidPageLength.message) ∧
    (¬ psa.startPage < 1 → ¬ psa.endPage < 1 → ¬ psa.endPage < psa.startPage →
      ¬ psa.pageLength < 1 →
      (psa.formFeed = true ∧ (psa.pageLength ≠ 72 ∨ "--l" ∈ allArgs)) →
      (processArgs psa nonFlags allArgs).1 =
        Except.error ArgError.ConflictingDelimiters.message) ∧
    (¬ psa.startPage < 1 → ¬ psa.endPage < 1 → ¬ psa.endPage < psa.startPage →
      ¬ psa.pageLength < 1 →
      ¬ (psa.formFeed = true ∧ (psa.pageLength ≠ 72 ∨ "--l" ∈ allArgs)) →
      1 < nonFlags.length →
      (processArgs psa nonFlags allArgs).1 =
        Except.error ArgError.TooManyInputFiles.message) ∧
    (∀ a b : ArgError, a.message = b.message → a = b) ∧
    (processArgs (request 0 5 psa.pageLength psa.formFeed) nonFlags allArgs).1 =
      Except.error ArgError.InvalidStartPage.message ∧
    (processArgs (request 3 2 psa.pageLength psa.formFeed) nonFlags allArgs).1 =
      Except.error ArgError.EndBeforeStart.message := by
  have hfind := findL_eq_true_iff allArgs
  refine ⟨?_, ?_, ?_, ?_, ?_, ?_, ?_, ?_, ?_⟩
  · intro h1
    rw [processArgs, if_pos h1]; rfl
  · intro h1 h2
    rw [processArgs, if_neg h1, if_pos h2]; rfl
  · intro h1 h2 h3
    rw [processArgs, if_neg h1, if_neg h2, if_pos h3]; rfl
  · intro h1 h2 h3 h4
    rw [processArgs, if_neg h1, if_neg h2, if_neg h3, if_pos h4]; rfl
  · intro h1 h2 h3 h4 h5
    have h5a : (psa.formFeed && (psa.pageLength != 72 || findL allArgs)) = true := by
      simpa [hfind] using h5
    rw [processArgs, if_neg h1, if_neg h2, if_neg h3, if_neg h4, if_pos h5a]; rfl
  · intro h1 h2 h3 h4 h5 h6
    have h5a : ¬ (psa.formFeed && (psa.pageLength != 72 || findL allArgs)) = true := by
      simpa [hfind] using h5
    rw [processArgs, if_neg h1, if_neg h2, if_neg h3, if_neg h4, if_neg h5a, if_pos h6]; rfl
  · intro a b
    cases a <;> cases b <;> simp [ArgError.message]
  · rw [processArgs, if_pos (by simp [request])]; rfl
  · rw [processArgs, if_neg (by simp [request]), if_neg (by simp [request]),
      if_pos (by simp [request])]; rfl

/-- C9: with `--s 1 --e 2 --f --l=72` the parser yields page length 72 and
form-feed mode, no raw token is exactly `--l`, and `processArgs` accepts the
request; with the two tokens `--l 72` instead it reports `ConflictingDelimiters`. -/
theorem processArgs_accepts_equals_form :
    (processArgs (request 1 2 72 true) [] ["--s", "1", "--e", "2", "--f", "--l=72"]).1 =
      Except.ok () ∧
    (processArgs (request 1 2 72 true) [] ["--s", "1", "--e", "2", "--f", "--l", "72"]).1 =
      Except.error ArgError.ConflictingDelimiters.message := by
  constructor
  · simp [processArgs, request, findL]
  · simp [processArgs, request, findL, ArgError.message]

/-- C10: when `processArgs` succeeds the record it leaves has the start page,
end page, page length, form-feed switch and destination it was given, its input
file is the positional argument when exactly one was given and the prior input
file when none was given; when it fails the record is the one it was given. -/
theorem processArgs_frame (psa : SelpgArgs) (nonFlags allArgs : List String) :
    ((processArgs psa nonFlags allArgs).1 = Except.ok () →
      (processArgs psa nonFlags allArgs).2.startPage = psa.startPage ∧
      (processArgs psa nonFlags allArgs).2.endPage = psa.endPage ∧
      (processArgs psa nonFlags allArgs).2.pageLength = psa.pageLength ∧
      (processArgs psa nonFlags allArgs).2.formFeed = psa.formFeed ∧
      (processArgs psa nonFlags allArgs).2.destination = psa.destination ∧
      (∀ file, nonFlags = [file] → (processArgs psa nonFlags allArgs).2.inputFile = file) ∧
      (nonFlags = [] → (processArgs psa nonFlags allArgs).2.inputFile = psa.inputFile) ∧
      nonFlags.length ≤ 1) ∧
    (∀ msg, (processArgs psa nonFlags allArgs).1 = Except.error msg →
      (processArgs psa nonFlags allArgs).2 = psa) := by
  unfold processArgs
  by_cases h1 : psa.startPage < 1
  · simp [h1]
  by_cases h2 : psa.endPage < 1
  · simp [h1, h2]
  by_cases h3 : psa.endPage < psa.startPage
  · simp [h1, h2, h3]
  by_cases h4 : psa.pageLength < 1
  · simp [h1, h2, h3, h4]
  by_cases h5 : (psa.formFeed && (psa.pageLength != 72 || findL allArgs)) = true
  · rw [if_neg h1, if_neg h2, if_neg h3, if_neg h4, if_pos h5]
    simp
  by_cases h6 : nonFlags.length > 1
  · rw [if_neg h1, if_neg h2, if_neg h3, if_neg h4, if_neg h5, if_pos h6]
    simp
  rw [if_neg h1, if_neg h2, if_neg h3, if_neg h4, if_neg h5, if_neg h6]
  by_cases h7 : nonFlags.length = 1
  · rw [dif_pos h7]
    refine ⟨fun _ => ⟨rfl, rfl, rfl, rfl, rfl, ?_, ?_, by omega⟩, ?_⟩
    · intro file hfile
      subst hfile
      rfl
    · intro hnil
      subst hnil
      simp at h7
    · intro msg hmsg
      simp at hmsg
  · rw [dif_neg h7]
    refine ⟨fun _ => ⟨rfl, rfl, rfl, rfl, rfl, ?_, ?_, by omega⟩, ?_⟩
    · intro file hfile
      subst hfile
      simp at h7
    · intro _
      rfl
    · intro msg hmsg
      simp at hmsg

/-- C5: for a validated request, in both modes, the selection returns and its
output is the output computed on the input truncated after its first
`endPage - 1` pages (after the `(endPage-1)`-th form feed, or after the first
`(endPage-1) * pageLength` lines); so an input that agrees with it on these
pages produces the same output. -/
theorem output_ignores_pages_from_endPage (psa : SelpgArgs) (input : List Byte)
    (hl : 1 ≤ psa.pageLength) :
    (∃ out, selected psa input = some out ∧
      selected psa (takePages psa (psa.endPage - 1) input) = some out) ∧
    (∀ other, takePages psa (psa.endPage - 1) other = takePages psa (psa.endPage - 1) input →
      selected psa other = selected psa input) := by
  have hidem : takePages psa (psa.endPage - 1) (takePages psa (psa.endPage - 1) input) =
      takePages psa (psa.endPage - 1) input := takeChunks_idem _ _ _
  refine ⟨⟨_, selected_eq_pages psa input hl, ?_⟩, ?_⟩
  · rw [selected_eq_pages psa _ hl, hidem]
  · intro other hother
    rw [selected_eq_pages psa other hl, selected_eq_pages psa input hl, hother]

/-- C5 on the five-chunk test file with pages `[2,4)`: the input cut after its
third form feed gives the same output `2\f3\f`. -/
theorem output_ignores_pages_from_endPage_witness :
    takePages (request 2 4 72 true) 3 testFormFeed = [49, 12, 50, 12, 51, 12] ∧
    selected (request 2 4 72 true) testFormFeed = some [50, 12, 51, 12] ∧
    selected (request 2 4 72 true) [49, 12, 50, 12, 51, 12] = some [50, 12, 51, 12] ∧
    selected (request 2 4 72 true) [49, 12, 50, 12, 51, 12, 57, 57] =
      selected (request 2 4 72 true) testFormFeed :=
  ⟨by decide, by decide, by decide,
   (output_ignores_pages_from_endPage (request 2 4 72 true) testFormFeed (by decide)).2
     [49, 12, 50, 12, 51, 12, 57, 57] (by decide)⟩

/-- C6: for a request with `pageLength ≥ 1` and an input with fewer than
`endPage` pages (non-empty form-feed chunks, or groups of `pageLength` lines,
the last possibly partial), the selection returns and its output is the input
without its first `startPage - 1` pages; it is empty when the input has fewer
than `startPage` pages. -/
theorem endPage_beyond_input (psa : SelpgArgs) (input : List Byte)
    (hl : 1 ≤ psa.pageLength) (h : (numPages psa input : Int) < psa.endPage) :
    selected psa input = some (dropPages psa (psa.startPage - 1) input) ∧
    ((numPages psa input : Int) < psa.startPage →
      dropPages psa (psa.startPage - 1) input = []) := by
  have htake : takePages psa (psa.endPage - 1) input = input :=
    takeChunks_of_numPieces_le _ _ _
      (numPieces_le_of_numPages_le psa input (psa.endPage - 1) hl (by omega))
  refine ⟨?_, ?_⟩
  · rw [selected_eq_pages psa input hl, htake]
  · intro hs
    exact dropChunks_of_numPieces_le _ _ _
      (numPieces_le_of_numPages_le psa input (psa.startPage - 1) hl (by omega))

set_option maxRecDepth 1000000 in
/-- C6 on the 150-line test file with `pageLength = 72`: it has 3 pages, and
pages `[3,9)` give its lines `145..150`. -/
theorem endPage_beyond_input_witness :
    numPages (request 3 9 72 false) testPageLength = 3 ∧
    selected (request 3 9 72 false) testPageLength = some (linesFromTo 145 150) :=
  ⟨by decide,
   (endPage_beyond_input (request 3 9 72 false) testPageLength (by decide)
     (by decide)).1.trans (by decide)⟩

/-- C7 as stated fails: with one form feed in `1\f2`, pages `[1,3)` append two
chunks where the formula on the number of page boundaries gives 1; with no
newline in `a` and `pageLength = 1`, pages `[1,2)` append one line where the
formula gives 0. -/
theorem appended_amount_boundaries_counterexample :
    (scan (request 1 3 72 true) [49, 12, 50]).map (appendedPages (request 1 3 72 true)) =
      some 2 ∧
    max 0 (min 3 ((pageBoundaries (request 1 3 72 true) [49, 12, 50] : Int) + 1) - 1) = 1 ∧
    (scan (request 1 2 1 false) [97]).map (appendedPages (request 1 2 1 false)) = some 1 ∧
    max 0 (min 2 ((pageBoundaries (request 1 2 1 false) [97] : Int) + 1) - 1) = 0 := by
  decide

/-- C7, amended: for a validated request the selection returns, and the number
of chunks appended in form-feed mode, or the number of lines appended divided
by `pageLength` in line-count mode, is `max(0, min(endPage, totalPages+1) -
startPage)` where `totalPages` counts what the scan reads in full with the
final unterminated (possibly empty) piece included: the number of form-feed
bytes plus one, or the number of completed groups of `pageLength` lines among
the newline-terminated lines and the final remainder. -/
theorem appended_amount (psa : SelpgArgs) (input : List Byte)
    (hs : 1 ≤ psa.startPage) (hl : 1 ≤ psa.pageLength) :
    ∃ st, scan psa input = some st ∧
      appendedPages psa st =
        max 0 (min psa.endPage ((readablePages psa input : Int) + 1) - psa.startPage) := by
  obtain ⟨st, h1, h2⟩ := scan_writer_length psa input hl
  refine ⟨st, h1, ?_⟩
  obtain ⟨a, ha⟩ : ∃ a : Nat, psa.startPage - 1 = a := Int.eq_ofNat_of_zero_le (by omega)
  obtain ⟨n, hn⟩ : ∃ n : Nat, psa.pageLength = n := Int.eq_ofNat_of_zero_le (by omega)
  have hn0 : 0 < n := by omega
  by_cases he : 1 ≤ psa.endPage
  · obtain ⟨b, hb⟩ : ∃ b : Nat, psa.endPage - 1 = b := Int.eq_ofNat_of_zero_le (by omega)
    cases hf : psa.formFeed with
    | true =>
      simp only [delimiter, piecesPerPage, hf, if_true, mul_one] at h2
      simp only [appendedPages, readablePages, hf, if_true, h2]
      rw [ha, hb, Int.toNat_natCast, Int.toNat_natCast]
      push_cast
      omega
    | false =>
      simp only [delimiter, piecesPerPage, hf, Bool.false_eq_true, if_false] at h2
      simp only [appendedPages, readablePages, hf, Bool.false_eq_true, if_false, h2]
      rw [ha, hb, hn, toNat_mul_natCast, toNat_mul_natCast, Int.toNat_natCast,
        ← Int.natCast_div, min_mul_sub_div a b _ n hn0]
      omega
  · have hhi : ((psa.endPage - 1) * piecesPerPage psa).toNat = 0 := by
      have hu : 1 ≤ piecesPerPage psa := by
        unfold piecesPerPage
        split <;> omega
      have : (psa.endPage - 1) * piecesPerPage psa ≤ 0 :=
        Int.mul_nonpos_of_nonpos_of_nonneg (by omega) (by omega)
      omega
    have hlen : st.writer.length = 0 := by
      rw [h2, hhi]
      simp
    cases hf : psa.formFeed with
    | true =>
      simp only [appendedPages, hf, if_true, hlen]
      omega
    | false =>
      simp only [appendedPages, hf, Bool.false_eq_true, if_false, hlen]
      simp only [Nat.cast_zero, Int.zero_ediv]
      omega

set_option maxRecDepth 1000000 in
/-- C7, amended, on the 150-line test file with `pageLength = 72`: 151 lines
are read, two groups are complete, and pages `[1,9)` append `151 / 72 = 2`. -/
theorem appended_amount_witness :
    readablePages (request 1 9 72 false) testPageLength = 2 ∧
    ∃ st, scan (request 1 9 72 false) testPageLength = some st ∧
      appendedPages (request 1 9 72 false) st = 2 := by
  refine ⟨by decide, ?_⟩
  obtain ⟨st, h1, h2⟩ :=
    appended_amount (request 1 9 72 false) testPageLength (by decide) (by decide)
  refine ⟨st, h1, ?_⟩
  rw [h2]
  decide

/-- C8 as stated fails: `1\f2` has one form feed, and pages `[2,3)` select `2`;
`a\nb` has one completed group of `pageLength = 1` lines, and pages `[2,3)`
select `b`. -/
theorem startPage_beyond_boundaries_counterexample :
    pageBoundaries (request 2 3 72 true) [49, 12, 50] = 1 ∧
    selected (request 2 3 72 true) [49, 12, 50] = some [50] ∧
    pageBoundaries (request 2 3 1 false) [97, 10, 98] = 1 ∧
    selected (request 2 3 1 false) [97, 10, 98] = some [98] := by
  decide

/-- C8, amended: for a validated request, in both modes, if `startPage` exceeds
the number of pages of the input, a trailing partial page (a non-empty
unterminated chunk, or an incomplete group of lines) counted as a page, then
the selection returns and its output is empty. -/
theorem startPage_beyond_input (psa : SelpgArgs) (input : List Byte)
    (hl : 1 ≤ psa.pageLength) (h : (numPages psa input : Int) < psa.startPage) :
    selected psa input = some [] := by
  rw [selected_eq_pages psa input hl]
  exact congrArg some (dropChunks_takeChunks_eq_nil _ _ _ _
    (dropChunks_of_numPieces_le _ _ _
      (numPieces_le_of_numPages_le psa input (psa.startPage - 1) hl (by omega))))

/-- C8, amended, on the five-chunk test file: it has 5 pages and pages `[6,8)`
select nothing. -/
theorem startPage_beyond_input_witness :
    numPages (request 6 8 72 true) testFormFeed = 5 ∧
    selected (request 6 8 72 true) testFormFeed = some [] :=
  ⟨by decide, startPage_beyond_input (request 6 8 72 true) testFormFeed (by decide) (by decide)⟩

/-- C11: for a validated request, in both modes, the selection returns and the
input is `pre ++ output ++ post` where `pre` is the first `startPage - 1` pages
of the input (the whole input when it has fewer) and `post` is the input
without its first `endPage - 1` pages. -/
theorem output_is_contiguous_slice (psa : SelpgArgs) (input : List Byte)
    (he : psa.startPage ≤ psa.endPage) (hl : 1 ≤ psa.pageLength) :
    ∃ out, selected psa input = some out ∧
      input = takePages psa (psa.startPage - 1) input ++ out ++
        dropPages psa (psa.endPage - 1) input := by
  refine ⟨_, selected_eq_pages psa input hl, ?_⟩
  have hle : ((psa.startPage - 1) * piecesPerPage psa).toNat ≤
      ((psa.endPage - 1) * piecesPerPage psa).toNat :=
    toNat_mul_le_toNat_mul _ _ _ (by omega)
      (by have := one_le_piecesPerPage psa hl; omega)
  have h1 := takeChunks_append_dropChunks (delimiter psa) input
    ((psa.endPage - 1) * piecesPerPage psa).toNat
  have h2 := takeChunks_append_dropChunks (delimiter psa)
    (takeChunks (delimiter psa) ((psa.endPage - 1) * piecesPerPage psa).toNat input)
    ((psa.startPage - 1) * piecesPerPage psa).toNat
  rw [takeChunks_takeChunks _ _ _ _ hle] at h2
  simp only [takePages, dropPages]
  rw [h2, h1]

/-- C11 on the five-chunk test file with pages `[2,4)`: the input is `1\f`,
then the output `2\f3\f`, then `4\f5\f`. -/
theorem output_is_contiguous_slice_witness :
    takePages (request 2 4 72 true) (2 - 1) testFormFeed = [49, 12] ∧
    dropPages (request 2 4 72 true) (4 - 1) testFormFeed = [52, 12, 53, 12] ∧
    ∃ out, selected (request 2 4 72 true) testFormFeed = some out ∧
      testFormFeed = takePages (request 2 4 72 true) (2 - 1) testFormFeed ++ out ++
        dropPages (request 2 4 72 true) (4 - 1) testFormFeed :=
  ⟨by decide, by decide,
   output_is_contiguous_slice (request 2 4 72 true) testFormFeed (by decide) (by decide)⟩

/-- C17: for every input, every mode and `pageLength ≥ 1`, and page numbers
`s ≤ m ≤ e`, the three selections return, and the output for pages `[s,m)`
followed by the output for pages `[m,e)` is the output for pages `[s,e)`; the
output for `[s,s)` is empty; the output for `[s,m)` is a prefix of the output
for `[s,e)`. -/
theorem adjacent_ranges_concatenate (psa : SelpgArgs) (input : List Byte) (s m e : Int)
    (hsm : s ≤ m) (hme : m ≤ e) (hl : 1 ≤ psa.pageLength) :
    (∃ o1 o2 o3, selected (withPages psa s m) input = some o1 ∧
      selected (withPages psa m e) input = some o2 ∧
      selected (withPages psa s e) input = some o3 ∧
      o1 ++ o2 = o3 ∧ o1 <+: o3) ∧
    selected (withPages psa s s) input = some [] := by
  have hu : 0 ≤ piecesPerPage psa := by
    have := one_le_piecesPerPage psa hl
    omega
  have hsel : ∀ a b : Int, selected (withPages psa a b) input =
      some (((splitAfter (delimiter psa) input).take
        ((b - 1) * piecesPerPage psa).toNat).drop
        ((a - 1) * piecesPerPage psa).toNat).flatten :=
    fun a b => selected_eq_flatten (withPages psa a b) input hl
  have h1 := toNat_mul_le_toNat_mul (s - 1) (m - 1) (piecesPerPage psa) (by omega) hu
  have h2 := toNat_mul_le_toNat_mul (m - 1) (e - 1) (piecesPerPage psa) (by omega) hu
  have hcat := drop_take_append_drop_take (splitAfter (delimiter psa) input) _ _ _ h1 h2
  refine ⟨⟨_, _, _, hsel s m, hsel m e, hsel s e, ?_, ?_⟩, ?_⟩
  · rw [← List.flatten_append, hcat]
  · rw [← hcat, List.flatten_append]
    exact List.prefix_append _ _
  · rw [hsel s s]
    have hnil : ((splitAfter (delimiter psa) input).take
        ((s - 1) * piecesPerPage psa).toNat).drop ((s - 1) * piecesPerPage psa).toNat = [] :=
      List.drop_eq_nil_of_le (by rw [List.length_take]; exact Nat.min_le_left _ _)
    rw [hnil]
    rfl

/-- C17 on the five-chunk test file: pages `[2,3)` give `2\f`, pages `[3,5)`
give `3\f4\f`, pages `[2,5)` give `2\f3\f4\f`. -/
theorem adjacent_ranges_concatenate_witness :
    selected (withPages (request 1 1 72 true) 2 3) testFormFeed = some [50, 12] ∧
    selected (withPages (request 1 1 72 true) 3 5) testFormFeed = some [51, 12, 52, 12] ∧
    selected (withPages (request 1 1 72 true) 2 5) testFormFeed =
      some [50, 12, 51, 12, 52, 12] ∧
    ((∃ o1 o2 o3, selected (withPages (request 1 1 72 true) 2 3) testFormFeed = some o1 ∧
      selected (withPages (request 1 1 72 true) 3 5) testFormFeed = some o2 ∧
      selected (withPages (request 1 1 72 true) 2 5) testFormFeed = some o3 ∧
      o1 ++ o2 = o3 ∧ o1 <+: o3) ∧
    selected (withPages (request 1 1 72 true) 2 2) testFormFeed = some []) :=
  ⟨by decide, by decide, by decide,
   adjacent_ranges_concatenate (request 1 1 72 true) testFormFeed 2 3 5
     (by decide) (by decide) (by decide)⟩

/-- C12: on `startPage = 0, endPage = 5`, in every world, the run makes no
reader, performs no read and exits with status 1, but the message
`InvalidStartPage` and its newline are written to standard output and nothing is
written to standard error. -/
theorem validation_failure_prints_on_stdout (w : World) (len : Int) (ff : Bool)
    (nonFlags allArgs : List String) :
    ∃ o, main w (request 0 5 len ff) nonFlags allArgs = some o ∧
      o.stdout = bytes ArgError.InvalidStartPage.message ++ [NL] ∧ o.stderr = [] ∧
      o.reader = none ∧ o.reads = 0 ∧ o.ending = Ending.exit 1 := by
  have h : processArgs (request 0 5 len ff) nonFlags allArgs =
      (Except.error ArgError.InvalidStartPage.message, request 0 5 len ff) := by
    rw [processArgs, if_pos (by simp [request])]
    rfl
  rw [main, h]
  exact ⟨_, rfl, rfl, rfl, rfl, rfl, rfl⟩

/-- C13: for the validated request `--s 1 --e 2 --d lp0` on any standard input,
when both spooler steps succeed the run prints `<nil>` on standard error, writes
nothing to the spooler's input and exits with status 1; when obtaining the
spooler's input stream fails the run goes on to write to the absent stream and
is stopped by the runtime, nothing being written to the spooler either. -/
theorem spooler_success_is_fatal (stdin : List Byte) :
    (∃ o, main (plainWorld stdin) (withDestination (request 1 2 72 false) "lp0") []
        ["--s", "1", "--e", "2", "--d", "lp0"] = some o ∧
      o.stderr = bytes "<nil>" ++ [NL] ∧ o.spoolerIn = [] ∧ o.ending = Ending.exit 1 ∧
      selected (request 1 2 72 false) stdin = some o.stdout) ∧
    (∃ o, main (pipeFailsWorld stdin) (withDestination (request 1 2 72 false) "lp0") []
        ["--s", "1", "--e", "2", "--d", "lp0"] = some o ∧
      o.spoolerIn = [] ∧ o.ending = Ending.runtimePanic) := by
  have h : processArgs (withDestination (request 1 2 72 false) "lp0") []
      ["--s", "1", "--e", "2", "--d", "lp0"] =
      (Except.ok (), withDestination (request 1 2 72 false) "lp0") := by
    simp [processArgs, withDestination, request]
  have hscan : ∀ input, scan (withDestination (request 1 2 72 false) "lp0") input =
      scan (request 1 2 72 false) input := fun input => scan_congr _ _ input rfl rfl rfl rfl
  constructor
  · obtain ⟨st, hst, hrun⟩ := processInput_stdin (plainWorld stdin)
      (withDestination (request 1 2 72 false) "lp0") rfl
    rw [main, h]
    refine ⟨_, hrun, ?_⟩
    rw [hscan] at hst
    have hsel : selected (request 1 2 72 false) stdin = some st.output := by
      show Option.map Scan.output (scan _ (plainWorld stdin).stdin) = _
      rw [hst]
      rfl
    have hd : ((withDestination (request 1 2 72 false) "lp0").destination != "") = true := by
      simp [withDestination, request]
    rw [if_pos hd]
    simp [spool, plainWorld, processError, errorText, hsel]
  · obtain ⟨st, hst, hrun⟩ := processInput_stdin (pipeFailsWorld stdin)
      (withDestination (request 1 2 72 false) "lp0") rfl
    rw [main, h]
    refine ⟨_, hrun, ?_⟩
    have hd : ((withDestination (request 1 2 72 false) "lp0").destination != "") = true := by
      simp [withDestination, request]
    rw [if_pos hd]
    simp [spool, pipeFailsWorld]

/-- C14 as stated fails at `endPage = 1`: on the five-chunk test file the
form-feed loop makes 6 reads, and on `a\nb\n` with `pageLength = 72` the
line-count loop makes 1 read, where the stated numbers of reads are 0. -/
theorem reads_at_endPage_one_counterexample :
    (scan (request 1 1 72 true) testFormFeed).map Scan.reads = some 6 ∧
    min ((1 : Int) - 1).toNat (testFormFeed.count FF + 1) = 0 ∧
    (scan (request 1 1 72 false) [97, 10, 98, 10]).map Scan.reads = some 1 ∧
    min (((1 : Int) - 1) * 72).toNat ([97, 10, 98, 10].count NL + 1) = 0 := by
  decide

/-- C14, amended: for a validated request with `endPage ≥ 2` the selection
returns after `min(endPage-1, n+1)` chunk reads in form-feed mode and
`min((endPage-1)*pageLength, n+1)` line reads in line-count mode, `n` being the
number of delimiter bytes of the input. -/
theorem reads_until_endPage (psa : SelpgArgs) (input : List Byte)
    (he : 2 ≤ psa.endPage) (hl : 1 ≤ psa.pageLength) :
    ∃ st, scan psa input = some st ∧
      st.reads =
        min ((psa.endPage - 1) * piecesPerPage psa).toNat
          (input.count (delimiter psa) + 1) := by
  cases hf : psa.formFeed with
  | true =>
    obtain ⟨st1, h1, h2⟩ :=
      formFeedLoop_reads psa (input.length + 1) (Scan.init input) (Nat.lt_succ_self _)
    refine ⟨st1, by simp [scan, hf, h1], ?_⟩
    have hlt : (Scan.init input).pageCounter < psa.endPage := by
      simp only [Scan.init]
      omega
    rw [if_pos hlt] at h2
    simp only [Scan.init, Nat.zero_add] at h2
    simp only [delimiter, piecesPerPage, hf, if_true, mul_one]
    exact h2
  | false =>
    obtain ⟨st1, h1, h2⟩ :=
      lineLoop_reads psa hl (input.length + 1) (Scan.init input) (Nat.lt_succ_self _)
        (by simp only [Scan.init]; omega) (by simp [Scan.init]) (by simpa [Scan.init] using hl)
    refine ⟨st1, by simp [scan, hf, h1], ?_⟩
    simp only [Scan.init, Nat.cast_zero, zero_add, sub_self, sub_zero] at h2
    simp only [delimiter, piecesPerPage, hf, Bool.false_eq_true, if_false]
    omega

set_option maxRecDepth 1000000 in
/-- C14, amended, on the 150-line test file with `pageLength = 72`: pages
`[1,3)` are selected after 144 line reads. -/
theorem reads_until_endPage_witness :
    ∃ st, scan (request 1 3 72 false) testPageLength = some st ∧ st.reads = 144 := by
  obtain ⟨st, h1, h2⟩ :=
    reads_until_endPage (request 1 3 72 false) testPageLength (by decide) (by decide)
  refine ⟨st, h1, ?_⟩
  rw [h2]
  decide

/-- C15: for a request with an empty input file, in every world, the run
returns with standard input read to its end, the selection is written first on
standard output, and a run on a named file with the same bytes writes the same
bytes to standard output. -/
theorem stdin_is_drained (w : World) (psa : SelpgArgs) (hfile : psa.inputFile = "") :
    ∃ o sel, processInput w psa = some o ∧ o.reader = some [] ∧
      selected psa w.stdin = some sel ∧ sel <+: o.stdout ∧
      (psa.destination = "" → o.stdout = sel) ∧
      ∀ name, ¬ name = "" → w.openFile name = Except.ok w.stdin →
        ∃ o2, processInput w (withInputFile psa name) = some o2 ∧ o2.stdout = o.stdout := by
  obtain ⟨st, hst, hrun⟩ := processInput_stdin w psa hfile
  refine ⟨_, st.output, hrun, ?_, ?_, ?_, ?_, ?_⟩
  · split
    · rw [spool_reader]
    · rfl
  · rw [selected, hst]
    rfl
  · split
    · exact prefix_spool_stdout w st.output
        ⟨st.output, [], [], some [], st.reads + st.reader.length + 1, Ending.exit 0⟩
    · exact List.prefix_refl _
  · intro hd
    simp [hd]
  · intro name hname hopen
    obtain ⟨st2, hst2, hrun2⟩ := processInput_file w (withInputFile psa name) w.stdin
      hname hopen
    rw [scan_withInputFile, hst] at hst2
    cases hst2
    refine ⟨_, hrun2, ?_⟩
    have hdest : (withInputFile psa name).destination = psa.destination := rfl
    rw [hdest]
    split
    · exact spool_stdout_congr _ _ _ _ rfl
    · rfl

/-- C15 on the five-chunk test file with pages `[2,4)`, as standard input and
as the file `test-formFeed`: both runs print `2\f3\f`, the first leaves nothing
unread and the second leaves `4\f5\f`. -/
theorem stdin_is_drained_witness :
    (processInput (fileWorld "test-formFeed" testFormFeed) (request 2 4 72 true)).map
        Outcome.reader = some (some []) ∧
    (processInput (fileWorld "test-formFeed" testFormFeed)
        (withInputFile (request 2 4 72 true) "test-formFeed")).map Outcome.reader =
      some (some [52, 12, 53, 12]) ∧
    ∃ o sel, processInput (fileWorld "test-formFeed" testFormFeed) (request 2 4 72 true) =
        some o ∧ o.reader = some [] ∧
      selected (request 2 4 72 true) (fileWorld "test-formFeed" testFormFeed).stdin =
        some sel ∧ sel <+: o.stdout ∧
      ((request 2 4 72 true).destination = "" → o.stdout = sel) ∧
      ∀ name, ¬ name = "" →
        (fileWorld "test-formFeed" testFormFeed).openFile name =
          Except.ok (fileWorld "test-formFeed" testFormFeed).stdin →
        ∃ o2, processInput (fileWorld "test-formFeed" testFormFeed)
          (withInputFile (request 2 4 72 true) name) = some o2 ∧ o2.stdout = o.stdout :=
  ⟨by decide, by decide,
   stdin_is_drained (fileWorld "test-formFeed" testFormFeed) (request 2 4 72 true) rfl⟩

/-- C16: for every request, validated or not, and every input, the selection
loop of its mode ends, after at least one and at most `n + 1` reads, `n` being
the number of delimiter bytes of the input. -/
theorem selection_loop_terminates (psa : SelpgArgs) (input : List Byte) :
    ∃ st, scan psa input = some st ∧ 1 ≤ st.reads ∧
      st.reads ≤ input.count (delimiter psa) + 1 := by
  cases hf : psa.formFeed with
  | true =>
    obtain ⟨st1, h1, h2⟩ :=
      formFeedLoop_reads psa (input.length + 1) (Scan.init input) (Nat.lt_succ_self _)
    refine ⟨st1, by simp [scan, hf, h1], ?_⟩
    simp only [Scan.init, Nat.zero_add] at h2
    simp only [delimiter, hf, if_true]
    split at h2
    · rename_i hlt
      have : 1 ≤ (psa.endPage - 1).toNat := by omega
      omega
    · omega
  | false =>
    obtain ⟨st1, h1, h2⟩ :=
      lineLoop_reads_le psa (input.length + 1) (Scan.init input) (Nat.lt_succ_self _)
    refine ⟨st1, by simp [scan, hf, h1], ?_⟩
    simp only [Scan.init, Nat.zero_add] at h2
    simp only [delimiter, hf, Bool.false_eq_true, if_false]
    omega

end Selpg
